import Mathlib

set_option maxHeartbeats 1000000
set_option synthInstance.maxHeartbeats 400000

/-!
Formal model of the LogSearch trie-based search deduplication engine
(`search_logger.go` / `postgres_mock.go`, version 1 of the repository).

Representation choices of the shallow embedding:

* A search word is a list of characters (`Word`), matching Go's
  iteration over the runes of a string.
* Time is a natural number of abstract clock units.  The Go zero
  `time.Time` (` lastSeen.IsZero()`) is modelled by `Option Nat`,
  with `none` for the zero value.
* The trie is represented by its set of nodes keyed by the unique
  path from the root: an association list `List (Word × NodeData)`.
  A node for the string `p` exists exactly when `p` is a key; the Go
  child pointer `node.children[c]` corresponds to extending the key
  by the character `c`.  The root is the node with key `[]`.
* The mock PostgreSQL database is a list of records plus the next
  serial id, as in `MockPostgresDB`.  Go map iteration order is
  represented by list order.
* External gateway failures (spec section 7 allows any gateway call
  to fail) are modelled by injected failure flags: a `renameFail`
  flag on each submit (the `db.Update` rename call errors) and a
  `storeFails` list on each sweep tick (the `db.InsertOrReplace`
  call for those words errors).  The mock database itself never
  fails except `Update` on a missing id, which is also covered.
-/

abbrev Word := List Char

/-- Data stored at one trie node: the fields of Go's `TrieNode`
apart from the `children` map, which is represented by the key
structure of the association list. -/
structure NodeData where
  isEndOfWord : Bool
  lastSeen : Option Nat
  dbID : Option Nat
deriving Repr, DecidableEq

/-- Freshly allocated node: `&TrieNode{children: make(map[rune]*TrieNode)}`. -/
def NodeData.init : NodeData := { isEndOfWord := false, lastSeen := none, dbID := none }

/-- The prefix tree, as a path-keyed association list of nodes. -/
abbrev Trie := List (Word × NodeData)

/-- Navigation to the node of a path; `none` when some child pointer
along the way is nil. -/
def findNode : Trie → Word → Option NodeData
  | [], _ => none
  | (q, d) :: rest, p => if q = p then some d else findNode rest p

/-- Mutation of the node of a path in place (no-op when the node does
not exist). -/
def updateNode : Trie → Word → (NodeData → NodeData) → Trie
  | [], _, _ => []
  | (q, d) :: rest, p, f => if q = p then (q, f d) :: rest else (q, d) :: updateNode rest p f

/-- Allocation of a missing node: `node.children[char] = &TrieNode{...}`. -/
def insertNode (t : Trie) (p : Word) : Trie :=
  if (findNode t p).isSome then t else t ++ [(p, NodeData.init)]

/-- The traverse/build loop of `LogSearch`: walking the characters of
the word from the position `pre`, creating each missing node. -/
def insertPathAux : Trie → Word → Word → Trie
  | t, _, [] => t
  | t, pre, c :: rest => insertPathAux (insertNode t (pre ++ [c])) (pre ++ [c]) rest

/-- Traverse/build the node chain for a word, starting at the root. -/
def insertPath (t : Trie) (w : Word) : Trie := insertPathAux t [] w

/-- Assignment `node.lastSeen = now`. -/
def setLastSeen (t : Trie) (p : Word) (now : Nat) : Trie :=
  updateNode t p (fun d => { d with lastSeen := some now })

/-- Assignment `node.isEndOfWord = b`. -/
def setIsEnd (t : Trie) (p : Word) (b : Bool) : Trie :=
  updateNode t p (fun d => { d with isEndOfWord := b })

/-- Assignment `node.dbID = i` (with `none` for nil). -/
def setDbID (t : Trie) (p : Word) (i : Option Nat) : Trie :=
  updateNode t p (fun d => { d with dbID := i })

/-- Observation of a node's `lastSeen` through its path (`none` when
the node is missing or its timestamp is the zero value). -/
def trieLastSeen (t : Trie) (p : Word) : Option Nat :=
  (findNode t p).bind (fun d => d.lastSeen)

/-- Observation of a node's `dbID` through its path. -/
def trieDbID (t : Trie) (p : Word) : Option Nat :=
  (findNode t p).bind (fun d => d.dbID)

/-- Observation of a node's `isEndOfWord` flag through its path. -/
def trieIsEnd (t : Trie) (p : Word) : Option Bool :=
  (findNode t p).map (fun d => d.isEndOfWord)

/-- One row of the mock `searches` table. -/
structure SearchRecord where
  id : Nat
  word : Word
  firstSearchedAt : Nat
  lastUpdatedAt : Nat
  searchCount : Nat
deriving Repr, DecidableEq

/-- The `MockPostgresDB` state: the rows and the next serial id. -/
structure MockDB where
  searches : List SearchRecord
  nextID : Nat
deriving Repr, DecidableEq

/-- A freshly created mock database (`NewMockPostgresDB`). -/
def MockDB.empty : MockDB := { searches := [], nextID := 1 }

/-- Helper of `InsertOrReplace`: update the row of an existing word,
returning its id, or `none` when the word is absent. -/
def dbInsertAux (w : Word) (now : Nat) : List SearchRecord → Option (Nat × List SearchRecord)
  | [] => none
  | r :: rest =>
    if r.word = w then
      some (r.id, { r with lastUpdatedAt := now, searchCount := r.searchCount + 1 } :: rest)
    else
      (dbInsertAux w now rest).map (fun pr => (pr.1, r :: pr.2))

/-- `MockPostgresDB.InsertOrReplace`: update the row of the word if
present, otherwise insert a new row under the next serial id.  The
mock never returns an error here. -/
def dbInsertOrReplace (db : MockDB) (w : Word) (now : Nat) : Nat × MockDB :=
  match dbInsertAux w now db.searches with
  | some (i, s) => (i, { db with searches := s })
  | none =>
      (db.nextID,
       { searches := db.searches ++
           [{ id := db.nextID, word := w, firstSearchedAt := now,
              lastUpdatedAt := now, searchCount := 1 }],
         nextID := db.nextID + 1 })

/-- Helper of `Update`: rewrite the word of the row with the given id,
or `none` (the "record not found" error) when the id is absent. -/
def dbUpdateAux (i : Nat) (w : Word) (now : Nat) : List SearchRecord → Option (List SearchRecord)
  | [] => none
  | r :: rest =>
    if r.id = i then
      some ({ r with word := w, lastUpdatedAt := now, searchCount := r.searchCount + 1 } :: rest)
    else
      (dbUpdateAux i w now rest).map (fun s => r :: s)

/-- `MockPostgresDB.Update`: in-place rename of the record with the
given id; `none` models the error return. -/
def dbUpdate (db : MockDB) (i : Nat) (w : Word) (now : Nat) : Option MockDB :=
  (dbUpdateAux i w now db.searches).map (fun s => { db with searches := s })

/-- `MockPostgresDB.GetAllSearchedWords`: the words of all rows. -/
def dbWords (db : MockDB) : List Word := db.searches.map (fun r => r.word)

/-- The `SearchLogger` state visible to the claims: the prefix tree,
the database, and the configured timeout. -/
structure SearchLogger where
  prefixTree : Trie
  db : MockDB
  timeout : Nat
deriving Repr, DecidableEq

/-- Go `strings.TrimSpace` on the character list: drop whitespace
from both ends. -/
def trimSpace (w : Word) : Word :=
  ((w.dropWhile Char.isWhitespace).reverse.dropWhile Char.isWhitespace).reverse

/-- The normalization of `LogSearch`:
`strings.ToLower(strings.TrimSpace(word))`. -/
def normalizeWord (w : Word) : Word := (trimSpace w).map Char.toLower

/-- The walk of `handleWordExtension` over the node chain of `word`.
`pre` is the prefix visited so far and `rest` the remaining
characters (so the loop index satisfies `i < len(word)-1` exactly
when `rest` is nonempty after the current step).  At every visited
node that is a completed word holding a dbID and is a proper prefix,
the record is renamed in the database to the full word and the id is
moved onto the full word's node; a failing rename aborts with the
error flag set, keeping the moves already performed.  The result is
the tree, the database and the error flag. -/
def handleWordExtensionAux (word : Word) (now : Nat) (renameFail : Bool) :
    Trie → MockDB → Word → Word → Trie × MockDB × Bool
  | t, db, _, [] => (t, db, false)
  | t, db, pre, c :: rest =>
    let p := pre ++ [c]
    match findNode t p with
    | none => (t, db, false)
    | some nd =>
      match nd.dbID with
      | some i =>
        if nd.isEndOfWord ∧ rest ≠ [] then
          if renameFail then (t, db, true)
          else
            match dbUpdate db i word now with
            | none => (t, db, true)
            | some db1 =>
              let t1 := setDbID t word (some i)
              let t2 := setDbID t1 p none
              handleWordExtensionAux word now renameFail t2 db1 p rest
        else handleWordExtensionAux word now renameFail t db p rest
      | none => handleWordExtensionAux word now renameFail t db p rest

/-- `handleWordExtension`: check whether the word extends a previously
stored shorter word, starting the walk at the root. -/
def handleWordExtension (t : Trie) (db : MockDB) (word : Word) (now : Nat)
    (renameFail : Bool) : Trie × MockDB × Bool :=
  handleWordExtensionAux word now renameFail t db [] word

/-- `LogSearch`: reject the empty string before normalization,
normalize, build the node chain, stamp the node, then run the
extension check.  The boolean result is the error flag returned to
the caller. -/
def logSearch (sl : SearchLogger) (word : Word) (now : Nat) (renameFail : Bool) :
    SearchLogger × Bool :=
  if word = [] then (sl, false)
  else
    let w := normalizeWord word
    let t1 := insertPath sl.prefixTree w
    let t2 := setLastSeen t1 w now
    let r := handleWordExtension t2 sl.db w now renameFail
    ({ sl with prefixTree := r.1, db := r.2.1 }, r.2.2)

/-- `hasAnySearchedDescendants`: some strict descendant of the node
has a set `lastSeen` timestamp.  In the path representation the
strict descendants of `w` are the keys strictly extending `w`. -/
def hasAnySearchedDescendants (t : Trie) (w : Word) : Bool :=
  t.any (fun e => decide (w <+: e.1 ∧ w ≠ e.1) && e.2.lastSeen.isSome)

/-- `isPrefixOfAnyWord`: navigate to the word's node (false when it is
missing) and look for searched descendants. -/
def isPrefixOfAnyWord (t : Trie) (w : Word) : Bool :=
  match findNode t w with
  | none => false
  | some _ => hasAnySearchedDescendants t w

/-- `findAllTimedOutWords`: every node whose `lastSeen` is set and
strictly before the cutoff, as the list of its paths. -/
def timedOutWords (t : Trie) (cutoff : Nat) : List Word :=
  (t.filter (fun e =>
    match e.2.lastSeen with
    | some ts => decide (ts < cutoff)
    | none => false)).map (fun e => e.1)

/-- One iteration of the storing loop of `processTimedOutWords` over a
collected word: skip when the node already has a dbID or is a prefix
of another searched word; otherwise mark it completed and store it,
where a failing `InsertOrReplace` (injected through `fails`) is
logged and skipped, leaving the dbID unset.  The accumulator carries
the tree, the database and the list of words stored so far. -/
def sweepStep (now : Nat) (fails : List Word) (acc : Trie × MockDB × List Word)
    (w : Word) : Trie × MockDB × List Word :=
  let t := acc.1
  let db := acc.2.1
  let stored := acc.2.2
  match findNode t w with
  | none => acc
  | some nd =>
    if nd.dbID ≠ none then acc
    else if isPrefixOfAnyWord t w then acc
    else
      let t1 := setIsEnd t w true
      if w ∈ fails then (t1, db, stored)
      else
        let r := dbInsertOrReplace db w now
        (setDbID t1 w (some r.1), r.2, stored ++ [w])

/-- `processTimedOutWords`: collect the timed-out words against the
cutoff `now - timeout`, then run the storing loop.  The second
result is the list of words successfully stored by this tick. -/
def processTimedOutWords (sl : SearchLogger) (now : Nat) (fails : List Word) :
    SearchLogger × List Word :=
  let cutoff := now - sl.timeout
  let cands := timedOutWords sl.prefixTree cutoff
  let r := cands.foldl (sweepStep now fails) (sl.prefixTree, sl.db, [])
  ({ sl with prefixTree := r.1, db := r.2.1 }, r.2.2)

/-- `buildTrieFromWord`: replay one stored word through the tree-build
path at startup, marking it a completed word seen now. -/
def buildTrieFromWord (t : Trie) (w : Word) (now : Nat) : Trie :=
  let t1 := insertPath t w
  setLastSeen (setIsEnd t1 w true) w now

/-- The trie with only the root node, as created by
`NewSearchLoggerWithDB`. -/
def emptyTrie : Trie := [([], NodeData.init)]

/-- `NewSearchLoggerWithDB` followed by `loadExistingWords`: every
stored word is replayed through `buildTrieFromWord` at the startup
time `now`. -/
def newSearchLoggerWithDB (timeout : Nat) (db : MockDB) (now : Nat) : SearchLogger :=
  { prefixTree := (dbWords db).foldl (fun t w => buildTrieFromWord t w now) emptyTrie,
    db := db,
    timeout := timeout }

/-- `NewSearchLogger`: a logger over a fresh empty database. -/
def freshLogger (timeout : Nat) : SearchLogger :=
  newSearchLoggerWithDB timeout MockDB.empty 0

/-- One external event of the system: a `LogSearch` call or one tick
of the sweeper, each carrying the current clock and the injected
gateway failures. -/
inductive Event where
  | submit (word : Word) (now : Nat) (renameFail : Bool)
  | sweep (now : Nat) (storeFails : List Word)
deriving Repr, DecidableEq

/-- The state transition of one event. -/
def step (sl : SearchLogger) : Event → SearchLogger
  | .submit w t rf => (logSearch sl w t rf).1
  | .sweep t fs => (processTimedOutWords sl t fs).1

/-- Running a sequence of events. -/
def run (sl : SearchLogger) (evs : List Event) : SearchLogger := evs.foldl step sl

/-- The persisted result set: the words of the stored records. -/
def storedWords (sl : SearchLogger) : List Word := dbWords sl.db

/-- The clock value of an event. -/
def evTime : Event → Nat
  | .submit _ t _ => t
  | .sweep t _ => t

/-- The submissions of a trace, in order, with their times. -/
def submitsOf : List Event → List (Word × Nat)
  | [] => []
  | .submit w t _ :: r => (w, t) :: submitsOf r
  | .sweep _ _ :: r => submitsOf r

/-- A trace with no injected gateway failures. -/
def failureFree (evs : List Event) : Bool :=
  evs.all (fun e =>
    match e with
    | .submit _ _ rf => !rf
    | .sweep _ fs => fs.isEmpty)

/-! Basic lemmas about the trie representation. -/

/-- Keys of the trie are unique paths. -/
def NoDupKeys (t : Trie) : Prop := (t.map Prod.fst).Nodup

theorem findNode_nil (q : Word) : findNode [] q = none := rfl

theorem findNode_cons (q r : Word) (d : NodeData) (rest : Trie) :
    findNode ((r, d) :: rest) q = if r = q then some d else findNode rest q := rfl

theorem updateNode_nil (p : Word) (f : NodeData → NodeData) : updateNode [] p f = [] := rfl

theorem updateNode_cons (p r : Word) (d : NodeData) (rest : Trie) (f : NodeData → NodeData) :
    updateNode ((r, d) :: rest) p f =
      if r = p then (r, f d) :: rest else (r, d) :: updateNode rest p f := rfl

theorem findNode_updateNode_self (t : Trie) (p : Word) (f : NodeData → NodeData) :
    findNode (updateNode t p f) p = (findNode t p).map f := by
  induction t with
  | nil => rfl
  | cons e rest ih =>
    obtain ⟨r, d⟩ := e
    rw [updateNode_cons]
    by_cases h : r = p
    · simp [findNode_cons, h]
    · simp only [if_neg h, findNode_cons, if_neg h, ih]

theorem findNode_updateNode_ne (t : Trie) (p : Word) (f : NodeData → NodeData)
    {q : Word} (h : q ≠ p) :
    findNode (updateNode t p f) q = findNode t q := by
  induction t with
  | nil => rfl
  | cons e rest ih =>
    obtain ⟨r, d⟩ := e
    rw [updateNode_cons]
    by_cases hr : r = p
    · have hrq2 : r ≠ q := by
        intro hq
        exact h (by rw [← hq, hr])
      simp [if_pos hr, findNode_cons, if_neg hrq2]
    · simp [if_neg hr, findNode_cons, ih]

theorem updateNode_map_fst (t : Trie) (p : Word) (f : NodeData → NodeData) :
    (updateNode t p f).map Prod.fst = t.map Prod.fst := by
  induction t with
  | nil => rfl
  | cons e rest ih =>
    obtain ⟨r, d⟩ := e
    rw [updateNode_cons]
    by_cases h : r = p
    · simp [if_pos h]
    · simp [if_neg h, ih]

theorem findNode_append_of_some {t : Trie} {q : Word} {d : NodeData}
    (h : findNode t q = some d) (l : Trie) : findNode (t ++ l) q = some d := by
  induction t with
  | nil => rw [findNode_nil] at h; exact absurd h (by simp)
  | cons e rest ih =>
    obtain ⟨r, d0⟩ := e
    rw [findNode_cons] at h
    rw [List.cons_append, findNode_cons]
    by_cases hr : r = q
    · simpa [hr] using h
    · rw [if_neg hr] at h ⊢
      exact ih h

theorem findNode_append_of_none {t : Trie} {q : Word}
    (h : findNode t q = none) (l : Trie) : findNode (t ++ l) q = findNode l q := by
  induction t with
  | nil => simp
  | cons e rest ih =>
    obtain ⟨r, d0⟩ := e
    rw [findNode_cons] at h
    rw [List.cons_append, findNode_cons]
    by_cases hr : r = q
    · simp [hr] at h
    · rw [if_neg hr] at h ⊢
      exact ih h

theorem findNode_isSome_iff_mem_keys (t : Trie) (q : Word) :
    (findNode t q).isSome ↔ q ∈ t.map Prod.fst := by
  induction t with
  | nil => simp [findNode_nil]
  | cons e rest ih =>
    obtain ⟨r, d⟩ := e
    rw [findNode_cons]
    by_cases hr : r = q
    · simp [hr]
    · simp only [if_neg hr, List.map_cons, List.mem_cons, ih]
      constructor
      · exact fun h => Or.inr h
      · rintro (h | h)
        · exact absurd h.symm hr
        · exact h

theorem mem_of_findNode {t : Trie} {q : Word} {d : NodeData}
    (h : findNode t q = some d) : (q, d) ∈ t := by
  induction t with
  | nil => rw [findNode_nil] at h; exact absurd h (by simp)
  | cons e rest ih =>
    obtain ⟨r, d0⟩ := e
    rw [findNode_cons] at h
    by_cases hr : r = q
    · subst hr
      simp at h
      simp [h]
    · rw [if_neg hr] at h
      exact List.mem_cons_of_mem _ (ih h)

theorem findNode_of_mem {t : Trie} {q : Word} {d : NodeData}
    (hnd : NoDupKeys t) (h : (q, d) ∈ t) : findNode t q = some d := by
  induction t with
  | nil => simp at h
  | cons e rest ih =>
    obtain ⟨r, d0⟩ := e
    simp only [NoDupKeys, List.map_cons, List.nodup_cons] at hnd
    rw [findNode_cons]
    rcases List.mem_cons.mp h with h1 | h1
    · have : r = q ∧ d0 = d := by
        constructor
        · exact (congrArg Prod.fst h1).symm
        · exact (congrArg Prod.snd h1).symm
      simp [this.1, this.2]
    · have hrq : r ≠ q := by
        intro hq
        subst hq
        exact hnd.1 (List.mem_map.mpr ⟨(r, d), h1, rfl⟩)
      rw [if_neg hrq]
      exact ih hnd.2 h1

theorem findNode_insertNode_of_some {t : Trie} {q : Word} {d : NodeData}
    (h : findNode t q = some d) (p : Word) : findNode (insertNode t p) q = some d := by
  unfold insertNode
  by_cases hp : (findNode t p).isSome
  · simp [hp, h]
  · simp [hp, findNode_append_of_some h]

theorem findNode_insertNode_none_ne {t : Trie} {q : Word}
    (h : findNode t q = none) {p : Word} (hqp : q ≠ p) :
    findNode (insertNode t p) q = none := by
  unfold insertNode
  by_cases hp : (findNode t p).isSome
  · simp [hp, h]
  · simp only [hp, if_neg, ite_false, Bool.false_eq_true]
    rw [findNode_append_of_none h, findNode_cons, if_neg (fun hh => hqp hh.symm), findNode_nil]

theorem findNode_insertNode_none_self {t : Trie} {p : Word}
    (h : findNode t p = none) : findNode (insertNode t p) p = some NodeData.init := by
  unfold insertNode
  simp only [h, Option.isSome_none, Bool.false_eq_true, if_false]
  rw [findNode_append_of_none h, findNode_cons, if_pos rfl]

theorem prefix_antisymm {a b : Word} (h1 : a <+: b) (h2 : b <+: a) : a = b :=
  h1.eq_of_length (Nat.le_antisymm h1.length_le h2.length_le)

theorem insertPathAux_nil (t : Trie) (pre : Word) : insertPathAux t pre [] = t := rfl

theorem insertPathAux_cons (t : Trie) (pre : Word) (c : Char) (rest : Word) :
    insertPathAux t pre (c :: rest) = insertPathAux (insertNode t (pre ++ [c])) (pre ++ [c]) rest := rfl

theorem findNode_insertPathAux_of_some {q : Word} {d : NodeData}
    (rest : Word) : ∀ (pre : Word) (t : Trie), findNode t q = some d →
      findNode (insertPathAux t pre rest) q = some d := by
  induction rest with
  | nil => intro pre t h; exact h
  | cons c rest ih =>
    intro pre t h
    rw [insertPathAux_cons]
    exact ih _ _ (findNode_insertNode_of_some h _)

theorem findNode_insertPathAux_none {q : Word} (rest : Word) :
    ∀ (pre : Word) (t : Trie), findNode t q = none →
      ¬(pre <+: q ∧ q ≠ pre ∧ q <+: pre ++ rest) →
      findNode (insertPathAux t pre rest) q = none := by
  induction rest with
  | nil => intro pre t h _; simpa [insertPathAux_nil] using h
  | cons c rest ih =>
    intro pre t h hq
    rw [insertPathAux_cons]
    have hqc : q ≠ pre ++ [c] := by
      intro he
      apply hq
      subst he
      refine ⟨List.prefix_append pre [c], ?_, ?_⟩
      · intro he2
        have := congrArg List.length he2
        simp at this
      · exact ⟨rest, by simp⟩
    refine ih (pre ++ [c]) _ (findNode_insertNode_none_ne h hqc) ?_
    rintro ⟨h1, h2, h3⟩
    apply hq
    refine ⟨(List.prefix_append pre [c]).trans h1, ?_, ?_⟩
    · intro he
      subst he
      have := h1.length_le
      simp at this
    · obtain ⟨u, hu⟩ := h3
      exact ⟨u, by rw [hu]; simp⟩

theorem findNode_insertPathAux_new {q : Word} (rest : Word) :
    ∀ (pre : Word) (t : Trie), findNode t q = none →
      pre <+: q → q ≠ pre → q <+: pre ++ rest →
      findNode (insertPathAux t pre rest) q = some NodeData.init := by
  induction rest with
  | nil =>
    intro pre t h h1 h2 h3
    rw [List.append_nil] at h3
    exact absurd (prefix_antisymm h1 h3).symm h2
  | cons c rest ih =>
    intro pre t h h1 h2 h3
    rw [insertPathAux_cons]
    obtain ⟨s, hs⟩ := h1
    have hsne : s ≠ [] := by
      rintro rfl
      rw [List.append_nil] at hs
      exact h2 hs.symm
    obtain ⟨c2, s2, rfl⟩ : ∃ c2 s2, s = c2 :: s2 := by
      cases s with
      | nil => exact absurd rfl hsne
      | cons a b => exact ⟨a, b, rfl⟩
    have hpref : c2 :: s2 <+: c :: rest := by
      have : pre ++ c2 :: s2 <+: pre ++ c :: rest := by rw [hs]; exact h3
      exact (List.prefix_append_right_inj pre).mp this
    rw [List.cons_prefix_cons] at hpref
    obtain ⟨hc, hs2⟩ := hpref
    rw [hc] at hs
    by_cases hnil : s2 = []
    · subst hnil
      have hq : q = pre ++ [c] := by rw [← hs]
      refine findNode_insertPathAux_of_some rest _ _ ?_
      rw [hq]
      exact findNode_insertNode_none_self (hq ▸ h)
    · have hqc : q ≠ pre ++ [c] := by
        intro he
        rw [← hs] at he
        have h5 : c :: s2 = [c] := List.append_cancel_left he
        simp at h5
        exact hnil h5
      refine ih (pre ++ [c]) _ (findNode_insertNode_none_ne h hqc) ?_ hqc ?_
      · exact ⟨s2, by rw [← hs]; simp⟩
      · obtain ⟨u, hu⟩ := h3
        exact ⟨u, by rw [hu]; simp⟩

theorem findNode_insertPath_of_some {t : Trie} {q : Word} {d : NodeData}
    (h : findNode t q = some d) (w : Word) : findNode (insertPath t w) q = some d :=
  findNode_insertPathAux_of_some w [] t h

theorem findNode_insertPath_none {t : Trie} {q : Word}
    (h : findNode t q = none) (w : Word) (hq : ¬(q ≠ [] ∧ q <+: w)) :
    findNode (insertPath t w) q = none := by
  refine findNode_insertPathAux_none w [] t h ?_
  rintro ⟨h1, h2, h3⟩
  exact hq ⟨h2, by simpa using h3⟩

theorem findNode_insertPath_new {t : Trie} {q : Word}
    (h : findNode t q = none) {w : Word} (hq : q ≠ []) (hw : q <+: w) :
    findNode (insertPath t w) q = some NodeData.init :=
  findNode_insertPathAux_new w [] t h (by simp) hq (by simpa using hw)

theorem findNode_insertPath_isSome (t : Trie) (w q : Word) :
    (findNode (insertPath t w) q).isSome ↔ (findNode t q).isSome ∨ (q ≠ [] ∧ q <+: w) := by
  cases hf : findNode t q with
  | some d => rw [findNode_insertPath_of_some hf]; simp
  | none =>
    by_cases hq : q ≠ [] ∧ q <+: w
    · rw [findNode_insertPath_new hf hq.1 hq.2]; simp [hq]
    · rw [findNode_insertPath_none hf w hq]; simp [hq]

theorem trieLastSeen_insertPath (t : Trie) (w q : Word) :
    trieLastSeen (insertPath t w) q = trieLastSeen t q := by
  unfold trieLastSeen
  cases hf : findNode t q with
  | some d => rw [findNode_insertPath_of_some hf]
  | none =>
    by_cases hq : q ≠ [] ∧ q <+: w
    · rw [findNode_insertPath_new hf hq.1 hq.2]; rfl
    · rw [findNode_insertPath_none hf w hq]

theorem trieDbID_insertPath (t : Trie) (w q : Word) :
    trieDbID (insertPath t w) q = trieDbID t q := by
  unfold trieDbID
  cases hf : findNode t q with
  | some d => rw [findNode_insertPath_of_some hf]
  | none =>
    by_cases hq : q ≠ [] ∧ q <+: w
    · rw [findNode_insertPath_new hf hq.1 hq.2]; rfl
    · rw [findNode_insertPath_none hf w hq]

theorem findNode_updateNode_isSome (t : Trie) (p : Word) (f : NodeData → NodeData) (q : Word) :
    (findNode (updateNode t p f) q).isSome = (findNode t q).isSome := by
  by_cases h : q = p
  · subst h
    rw [findNode_updateNode_self]
    exact Option.isSome_map'
  · rw [findNode_updateNode_ne _ _ _ h]

theorem trieLastSeen_setLastSeen_self {t : Trie} {p : Word}
    (h : (findNode t p).isSome) (now : Nat) :
    trieLastSeen (setLastSeen t p now) p = some now := by
  unfold trieLastSeen setLastSeen
  rw [findNode_updateNode_self]
  obtain ⟨d, hd⟩ := Option.isSome_iff_exists.mp h
  rw [hd]
  rfl

theorem trieLastSeen_setLastSeen_ne {q p : Word} (h : q ≠ p) (t : Trie) (now : Nat) :
    trieLastSeen (setLastSeen t p now) q = trieLastSeen t q := by
  unfold trieLastSeen setLastSeen
  rw [findNode_updateNode_ne _ _ _ h]

theorem trieDbID_setLastSeen (t : Trie) (p : Word) (now : Nat) (q : Word) :
    trieDbID (setLastSeen t p now) q = trieDbID t q := by
  unfold trieDbID setLastSeen
  by_cases h : q = p
  · subst h
    rw [findNode_updateNode_self]
    cases findNode t q <;> rfl
  · rw [findNode_updateNode_ne _ _ _ h]

theorem trieIsEnd_setLastSeen (t : Trie) (p : Word) (now : Nat) (q : Word) :
    trieIsEnd (setLastSeen t p now) q = trieIsEnd t q := by
  unfold trieIsEnd setLastSeen
  by_cases h : q = p
  · subst h
    rw [findNode_updateNode_self]
    cases findNode t q <;> rfl
  · rw [findNode_updateNode_ne _ _ _ h]

theorem trieLastSeen_setIsEnd (t : Trie) (p : Word) (b : Bool) (q : Word) :
    trieLastSeen (setIsEnd t p b) q = trieLastSeen t q := by
  unfold trieLastSeen setIsEnd
  by_cases h : q = p
  · subst h
    rw [findNode_updateNode_self]
    cases findNode t q <;> rfl
  · rw [findNode_updateNode_ne _ _ _ h]

theorem trieDbID_setIsEnd (t : Trie) (p : Word) (b : Bool) (q : Word) :
    trieDbID (setIsEnd t p b) q = trieDbID t q := by
  unfold trieDbID setIsEnd
  by_cases h : q = p
  · subst h
    rw [findNode_updateNode_self]
    cases findNode t q <;> rfl
  · rw [findNode_updateNode_ne _ _ _ h]

theorem trieIsEnd_setIsEnd_self {t : Trie} {p : Word}
    (h : (findNode t p).isSome) (b : Bool) :
    trieIsEnd (setIsEnd t p b) p = some b := by
  unfold trieIsEnd setIsEnd
  rw [findNode_updateNode_self]
  obtain ⟨d, hd⟩ := Option.isSome_iff_exists.mp h
  rw [hd]
  rfl

theorem trieIsEnd_setIsEnd_ne {q p : Word} (h : q ≠ p) (t : Trie) (b : Bool) :
    trieIsEnd (setIsEnd t p b) q = trieIsEnd t q := by
  unfold trieIsEnd setIsEnd
  rw [findNode_updateNode_ne _ _ _ h]

theorem trieLastSeen_setDbID (t : Trie) (p : Word) (i : Option Nat) (q : Word) :
    trieLastSeen (setDbID t p i) q = trieLastSeen t q := by
  unfold trieLastSeen setDbID
  by_cases h : q = p
  · subst h
    rw [findNode_updateNode_self]
    cases findNode t q <;> rfl
  · rw [findNode_updateNode_ne _ _ _ h]

theorem trieIsEnd_setDbID (t : Trie) (p : Word) (i : Option Nat) (q : Word) :
    trieIsEnd (setDbID t p i) q = trieIsEnd t q := by
  unfold trieIsEnd setDbID
  by_cases h : q = p
  · subst h
    rw [findNode_updateNode_self]
    cases findNode t q <;> rfl
  · rw [findNode_updateNode_ne _ _ _ h]

theorem trieDbID_setDbID_self {t : Trie} {p : Word}
    (h : (findNode t p).isSome) (i : Option Nat) :
    trieDbID (setDbID t p i) p = i := by
  unfold trieDbID setDbID
  rw [findNode_updateNode_self]
  obtain ⟨d, hd⟩ := Option.isSome_iff_exists.mp h
  rw [hd]
  rfl

theorem trieDbID_setDbID_ne {q p : Word} (h : q ≠ p) (t : Trie) (i : Option Nat) :
    trieDbID (setDbID t p i) q = trieDbID t q := by
  unfold trieDbID setDbID
  rw [findNode_updateNode_ne _ _ _ h]

theorem hasAny_cons (e : Word × NodeData) (rest : Trie) (w : Word) :
    hasAnySearchedDescendants (e :: rest) w =
      ((decide (w <+: e.1 ∧ w ≠ e.1) && e.2.lastSeen.isSome) ||
        hasAnySearchedDescendants rest w) := by
  simp [hasAnySearchedDescendants]

theorem hasAny_updateNode (t : Trie) (p w : Word) (f : NodeData → NodeData)
    (hf : ∀ d, (f d).lastSeen = d.lastSeen) :
    hasAnySearchedDescendants (updateNode t p f) w = hasAnySearchedDescendants t w := by
  induction t with
  | nil => rfl
  | cons e rest ih =>
    obtain ⟨r, d⟩ := e
    rw [updateNode_cons]
    by_cases h : r = p
    · rw [if_pos h, hasAny_cons, hasAny_cons]
      simp [hf]
    · rw [if_neg h, hasAny_cons, hasAny_cons, ih]

theorem hasAny_append_single (t : Trie) (p : Word) (d : NodeData) (w : Word) :
    hasAnySearchedDescendants (t ++ [(p, d)]) w =
      (hasAnySearchedDescendants t w ||
        (decide (w <+: p ∧ w ≠ p) && d.lastSeen.isSome)) := by
  simp [hasAnySearchedDescendants]

theorem hasAny_insertNode (t : Trie) (p w : Word) :
    hasAnySearchedDescendants (insertNode t p) w = hasAnySearchedDescendants t w := by
  unfold insertNode
  by_cases hp : (findNode t p).isSome
  · simp [hp]
  · simp [hp, hasAny_append_single, NodeData.init]

theorem hasAny_insertPathAux (w : Word) (rest : Word) :
    ∀ (pre : Word) (t : Trie),
      hasAnySearchedDescendants (insertPathAux t pre rest) w = hasAnySearchedDescendants t w := by
  induction rest with
  | nil => intro pre t; rfl
  | cons c rest ih =>
    intro pre t
    rw [insertPathAux_cons, ih, hasAny_insertNode]

theorem hasAny_insertPath (t : Trie) (v w : Word) :
    hasAnySearchedDescendants (insertPath t v) w = hasAnySearchedDescendants t w :=
  hasAny_insertPathAux w v [] t

theorem isPrefixOfAnyWord_updateNode (t : Trie) (p : Word) (f : NodeData → NodeData)
    (hf : ∀ d, (f d).lastSeen = d.lastSeen) (w : Word) :
    isPrefixOfAnyWord (updateNode t p f) w = isPrefixOfAnyWord t w := by
  unfold isPrefixOfAnyWord
  by_cases h : w = p
  · subst h
    rw [findNode_updateNode_self]
    cases findNode t w with
    | none => rfl
    | some d => simp [hasAny_updateNode t w w f hf]
  · rw [findNode_updateNode_ne _ _ _ h]
    cases findNode t w with
    | none => rfl
    | some d => simp [hasAny_updateNode t p w f hf]

theorem noDupKeys_updateNode {t : Trie} (h : NoDupKeys t) (p : Word) (f : NodeData → NodeData) :
    NoDupKeys (updateNode t p f) := by
  unfold NoDupKeys
  rw [updateNode_map_fst]
  exact h

theorem noDupKeys_insertNode {t : Trie} (h : NoDupKeys t) (p : Word) :
    NoDupKeys (insertNode t p) := by
  unfold insertNode
  by_cases hp : (findNode t p).isSome
  · simpa [hp] using h
  · have hpm : p ∉ t.map Prod.fst := by
      rw [← findNode_isSome_iff_mem_keys]
      simp [hp]
    simp only [hp, Bool.false_eq_true, if_false]
    unfold NoDupKeys
    rw [List.map_append]
    simp [List.nodup_append, hpm]
    exact h

theorem noDupKeys_insertPathAux (rest : Word) :
    ∀ (pre : Word) (t : Trie), NoDupKeys t → NoDupKeys (insertPathAux t pre rest) := by
  induction rest with
  | nil => intro pre t h; exact h
  | cons c rest ih =>
    intro pre t h
    rw [insertPathAux_cons]
    exact ih _ _ (noDupKeys_insertNode h _)

theorem noDupKeys_insertPath {t : Trie} (h : NoDupKeys t) (w : Word) :
    NoDupKeys (insertPath t w) :=
  noDupKeys_insertPathAux w [] t h

theorem trieLastSeen_eq_of_findNode {t : Trie} {q : Word} {d : NodeData}
    (h : findNode t q = some d) : trieLastSeen t q = d.lastSeen := by
  unfold trieLastSeen
  rw [h]
  rfl

theorem trieLastSeen_eq_none_of_findNode {t : Trie} {q : Word}
    (h : findNode t q = none) : trieLastSeen t q = none := by
  unfold trieLastSeen
  rw [h]
  rfl

theorem trieDbID_eq_of_findNode {t : Trie} {q : Word} {d : NodeData}
    (h : findNode t q = some d) : trieDbID t q = d.dbID := by
  unfold trieDbID
  rw [h]
  rfl

theorem trieDbID_eq_none_of_findNode {t : Trie} {q : Word}
    (h : findNode t q = none) : trieDbID t q = none := by
  unfold trieDbID
  rw [h]
  rfl

theorem trieIsEnd_eq_of_findNode {t : Trie} {q : Word} {d : NodeData}
    (h : findNode t q = some d) : trieIsEnd t q = some d.isEndOfWord := by
  unfold trieIsEnd
  rw [h]
  rfl

theorem hasAny_iff {t : Trie} (hnd : NoDupKeys t) (w : Word) :
    hasAnySearchedDescendants t w = true ↔
      ∃ q, w <+: q ∧ w ≠ q ∧ trieLastSeen t q ≠ none := by
  constructor
  · intro h
    unfold hasAnySearchedDescendants at h
    obtain ⟨e, he, hp⟩ := List.any_eq_true.mp h
    simp only [Bool.and_eq_true, decide_eq_true_eq] at hp
    refine ⟨e.1, hp.1.1, hp.1.2, ?_⟩
    have hfe : findNode t e.1 = some e.2 := findNode_of_mem hnd (by cases e; exact he)
    rw [trieLastSeen_eq_of_findNode hfe]
    intro hc
    rw [hc] at hp
    simp at hp
  · rintro ⟨q, h1, h2, h3⟩
    cases hf : findNode t q with
    | none => rw [trieLastSeen_eq_none_of_findNode hf] at h3; simp at h3
    | some d =>
      rw [trieLastSeen_eq_of_findNode hf] at h3
      unfold hasAnySearchedDescendants
      refine List.any_eq_true.mpr ⟨(q, d), mem_of_findNode hf, ?_⟩
      simp [h1, h2, Option.isSome_iff_ne_none, h3]

theorem hweAux_nil (word : Word) (now : Nat) (rf : Bool) (t : Trie) (db : MockDB) (pre : Word) :
    handleWordExtensionAux word now rf t db pre [] = (t, db, false) := rfl

theorem hweAux_cons (word : Word) (now : Nat) (rf : Bool) (t : Trie) (db : MockDB)
    (pre : Word) (c : Char) (rest : Word) :
    handleWordExtensionAux word now rf t db pre (c :: rest) =
      match findNode t (pre ++ [c]) with
      | none => (t, db, false)
      | some nd =>
        match nd.dbID with
        | some i =>
          if nd.isEndOfWord ∧ rest ≠ [] then
            if rf then (t, db, true)
            else
              match dbUpdate db i word now with
              | none => (t, db, true)
              | some db1 =>
                handleWordExtensionAux word now rf
                  (setDbID (setDbID t word (some i)) (pre ++ [c]) none) db1 (pre ++ [c]) rest
          else handleWordExtensionAux word now rf t db (pre ++ [c]) rest
        | none => handleWordExtensionAux word now rf t db (pre ++ [c]) rest := rfl

theorem hweAux_preserves (word : Word) (now : Nat) (rf : Bool) (rest : Word) :
    ∀ (pre : Word) (t : Trie) (db : MockDB),
      (∀ q, trieLastSeen (handleWordExtensionAux word now rf t db pre rest).1 q = trieLastSeen t q) ∧
      ((handleWordExtensionAux word now rf t db pre rest).1.map Prod.fst = t.map Prod.fst) ∧
      (∀ q, trieIsEnd (handleWordExtensionAux word now rf t db pre rest).1 q = trieIsEnd t q) := by
  induction rest with
  | nil =>
    intro pre t db
    rw [hweAux_nil]
    exact ⟨fun q => rfl, rfl, fun q => rfl⟩
  | cons c rest ih =>
    intro pre t db
    rw [hweAux_cons]
    split
    · exact ⟨fun q => rfl, rfl, fun q => rfl⟩
    · split
      · rename_i nd hf i hd
        split
        · split
          · exact ⟨fun q => rfl, rfl, fun q => rfl⟩
          · split
            · exact ⟨fun q => rfl, rfl, fun q => rfl⟩
            · rename_i db1 hu
              obtain ⟨ih1, ih2, ih3⟩ :=
                ih (pre ++ [c]) (setDbID (setDbID t word (some i)) (pre ++ [c]) none) db1
              refine ⟨fun q => ?_, ?_, fun q => ?_⟩
              · rw [ih1, trieLastSeen_setDbID, trieLastSeen_setDbID]
              · rw [ih2]
                unfold setDbID
                rw [updateNode_map_fst, updateNode_map_fst]
              · rw [ih3, trieIsEnd_setDbID, trieIsEnd_setDbID]
        · exact ih _ _ _
      · exact ih _ _ _

theorem prefix_extend {pre p word : Word} {c : Char} {rest : Word}
    (hw : pre ++ (c :: rest) = word) (h1 : pre <+: p) (h2 : p ≠ pre) (h3 : p <+: word) :
    (pre ++ [c]) <+: p := by
  obtain ⟨s, hs⟩ := h1
  have hsne : s ≠ [] := fun h => h2 (by rw [← hs, h, List.append_nil])
  have hsp : s <+: c :: rest := by
    apply (List.prefix_append_right_inj pre).mp
    rw [hs, hw]
    exact h3
  obtain ⟨c2, s2, rfl⟩ : ∃ c2 s2, s = c2 :: s2 := by
    cases s with
    | nil => exact absurd rfl hsne
    | cons a b => exact ⟨a, b, rfl⟩
  rw [List.cons_prefix_cons] at hsp
  exact ⟨s2, by rw [← hs]; simp [hsp.1]⟩

theorem hweAux_noAction (word : Word) (now : Nat) (rf : Bool) (rest : Word) :
    ∀ (pre : Word) (t : Trie) (db : MockDB),
      pre ++ rest = word →
      (∀ p d, p <+: word → p ≠ word → findNode t p = some d →
        d.isEndOfWord = true → d.dbID = none) →
      handleWordExtensionAux word now rf t db pre rest = (t, db, false) := by
  induction rest with
  | nil => intro pre t db _ _; exact hweAux_nil word now rf t db pre
  | cons c rest ih =>
    intro pre t db hw H
    rw [hweAux_cons]
    split
    · rfl
    · rename_i nd hf
      split
      · rename_i i hd
        split
        · rename_i hg
          exfalso
          have hp1 : (pre ++ [c]) <+: word := by
            rw [← hw]
            exact ⟨rest, by simp⟩
          have hp2 : (pre ++ [c]) ≠ word := by
            rw [← hw]
            intro he
            have h5 : [c] = c :: rest := List.append_cancel_left he
            have : rest = [] := by
              have := (List.cons.injEq c [] c rest).mp h5
              exact this.2.symm
            exact hg.2 this
          have := H _ _ hp1 hp2 hf hg.1
          rw [this] at hd
          cases hd
        · exact ih _ _ _ (by rw [← hw]; simp) H
      · exact ih _ _ _ (by rw [← hw]; simp) H

theorem hweAux_renameFail (word : Word) (now : Nat) (rest : Word) :
    ∀ (pre : Word) (t : Trie) (db : MockDB),
      pre ++ rest = word →
      (∀ p, pre <+: p → p ≠ pre → p <+: word → (findNode t p).isSome) →
      (∃ p d, pre <+: p ∧ p ≠ pre ∧ p <+: word ∧ p ≠ word ∧ findNode t p = some d ∧
        d.isEndOfWord = true ∧ d.dbID ≠ none) →
      handleWordExtensionAux word now true t db pre rest = (t, db, true) := by
  induction rest with
  | nil =>
    intro pre t db hw _ hwit
    obtain ⟨p, d, h1, h2, h3, _⟩ := hwit
    exfalso
    rw [List.append_nil] at hw
    rw [← hw] at h3
    exact h2 (prefix_antisymm h3 h1)
  | cons c rest ih =>
    intro pre t db hw hex hwit
    have hpc1 : pre <+: pre ++ [c] := List.prefix_append pre [c]
    have hpc2 : pre ++ [c] ≠ pre := by
      intro he
      have := congrArg List.length he
      simp at this
    have hpc3 : (pre ++ [c]) <+: word := by
      rw [← hw]
      exact ⟨rest, by simp⟩
    have hex2 : ∀ p2, (pre ++ [c]) <+: p2 → p2 ≠ pre ++ [c] → p2 <+: word →
        (findNode t p2).isSome := by
      intro p2 hh1 _ hh3
      have hne : p2 ≠ pre := by
        intro he
        rw [he] at hh1
        have := hh1.length_le
        simp at this
      exact hex p2 (hpc1.trans hh1) hne hh3
    rw [hweAux_cons]
    split
    · rename_i hnone
      exact absurd (hex _ hpc1 hpc2 hpc3) (by rw [hnone]; simp)
    · rename_i nd hf
      split
      · rename_i i hd
        split
        · rfl
        · rename_i hg
          obtain ⟨p, d, h1, h2, h3, h4, h5, h6, h7⟩ := hwit
          have hp : p ≠ pre ++ [c] := by
            intro he
            rw [he] at h5
            have hnd : d = nd := by
              have h8 := h5.symm.trans hf
              injection h8
            have hrest : rest = [] := by
              by_contra hrest
              exact hg ⟨by rw [← hnd]; exact h6, hrest⟩
            rw [hrest] at hw
            exact h4 (he.trans hw)
          have hpc : (pre ++ [c]) <+: p := prefix_extend hw h1 h2 h3
          exact ih (pre ++ [c]) t db (by rw [← hw]; simp) hex2
            ⟨p, d, hpc, hp, h3, h4, h5, h6, h7⟩
      · rename_i hd
        obtain ⟨p, d, h1, h2, h3, h4, h5, h6, h7⟩ := hwit
        have hp : p ≠ pre ++ [c] := by
          intro he
          rw [he] at h5
          have hnd : d = nd := by
            have h8 := h5.symm.trans hf
            injection h8
          rw [hnd, hd] at h7
          exact h7 rfl
        have hpc : (pre ++ [c]) <+: p := prefix_extend hw h1 h2 h3
        exact ih (pre ++ [c]) t db (by rw [← hw]; simp) hex2
          ⟨p, d, hpc, hp, h3, h4, h5, h6, h7⟩

theorem isSome_of_map_fst_eq {t1 t2 : Trie} (h : t1.map Prod.fst = t2.map Prod.fst)
    (q : Word) : (findNode t1 q).isSome = (findNode t2 q).isSome := by
  have h1 := findNode_isSome_iff_mem_keys t1 q
  have h2 := findNode_isSome_iff_mem_keys t2 q
  rw [h] at h1
  cases hb1 : (findNode t1 q).isSome <;> cases hb2 : (findNode t2 q).isSome
  · rfl
  · rw [hb1] at h1
    rw [hb2] at h2
    exact absurd (h1.mpr (h2.mp rfl)) (by simp)
  · rw [hb1] at h1
    rw [hb2] at h2
    exact absurd (h2.mpr (h1.mp rfl)) (by simp)
  · rfl

theorem findNode_insertPath_cases (t : Trie) (w q : Word) :
    findNode (insertPath t w) q = findNode t q ∨
      (findNode t q = none ∧ q ≠ [] ∧ q <+: w ∧
        findNode (insertPath t w) q = some NodeData.init) := by
  cases hf : findNode t q with
  | some d => exact Or.inl (findNode_insertPath_of_some hf w)
  | none =>
    by_cases hq : q ≠ [] ∧ q <+: w
    · exact Or.inr ⟨rfl, hq.1, hq.2, findNode_insertPath_new hf hq.1 hq.2⟩
    · exact Or.inl (by rw [findNode_insertPath_none hf w hq])

/-- The tree really existing at the root (always true in reachable states). -/
def hasRoot (t : Trie) : Prop := (findNode t []).isSome

theorem logSearch_nil (sl : SearchLogger) (now : Nat) (rf : Bool) :
    logSearch sl [] now rf = (sl, false) := rfl

theorem logSearch_eq (sl : SearchLogger) (word : Word) (now : Nat) (rf : Bool)
    (h : word ≠ []) :
    logSearch sl word now rf =
      ({ sl with
          prefixTree := (handleWordExtension
            (setLastSeen (insertPath sl.prefixTree (normalizeWord word)) (normalizeWord word) now)
            sl.db (normalizeWord word) now rf).1,
          db := (handleWordExtension
            (setLastSeen (insertPath sl.prefixTree (normalizeWord word)) (normalizeWord word) now)
            sl.db (normalizeWord word) now rf).2.1 },
        (handleWordExtension
          (setLastSeen (insertPath sl.prefixTree (normalizeWord word)) (normalizeWord word) now)
          sl.db (normalizeWord word) now rf).2.2) := by
  simp only [logSearch, if_neg h]


theorem trieLastSeen_logSearch (sl : SearchLogger) (word : Word) (now : Nat) (rf : Bool)
    (hroot : hasRoot sl.prefixTree) (q : Word) :
    trieLastSeen (logSearch sl word now rf).1.prefixTree q =
      if word ≠ [] ∧ q = normalizeWord word then some now
      else trieLastSeen sl.prefixTree q := by
  by_cases hw : word = []
  · subst hw
    rw [logSearch_nil]
    simp
  · rw [logSearch_eq sl word now rf hw]
    have hpres := hweAux_preserves (normalizeWord word) now rf (normalizeWord word) []
      (setLastSeen (insertPath sl.prefixTree (normalizeWord word)) (normalizeWord word) now) sl.db
    by_cases hq : q = normalizeWord word
    · rw [if_pos ⟨hw, hq⟩]
      unfold handleWordExtension
      rw [hpres.1 q, hq]
      refine trieLastSeen_setLastSeen_self ?_ now
      by_cases hqn : normalizeWord word = []
      · rw [hqn]
        exact hroot
      · cases hfq : findNode sl.prefixTree (normalizeWord word) with
        | some d => rw [findNode_insertPath_of_some hfq]; rfl
        | none =>
          rw [findNode_insertPath_new hfq hqn (List.prefix_refl _)]
          rfl
    · rw [if_neg (fun hh => hq hh.2)]
      unfold handleWordExtension
      rw [hpres.1 q, trieLastSeen_setLastSeen_ne hq, trieLastSeen_insertPath]

theorem findNode_isSome_logSearch (sl : SearchLogger) (word : Word) (now : Nat) (rf : Bool)
    (q : Word) :
    (findNode (logSearch sl word now rf).1.prefixTree q).isSome ↔
      (findNode sl.prefixTree q).isSome ∨
        (word ≠ [] ∧ q ≠ [] ∧ q <+: normalizeWord word) := by
  by_cases hw : word = []
  · subst hw
    rw [logSearch_nil]
    simp
  · rw [logSearch_eq sl word now rf hw]
    have hpres := hweAux_preserves (normalizeWord word) now rf (normalizeWord word) []
      (setLastSeen (insertPath sl.prefixTree (normalizeWord word)) (normalizeWord word) now) sl.db
    unfold handleWordExtension
    rw [isSome_of_map_fst_eq hpres.2.1 q]
    unfold setLastSeen
    rw [findNode_updateNode_isSome]
    rw [findNode_insertPath_isSome]
    constructor
    · rintro (h | h)
      · exact Or.inl h
      · exact Or.inr ⟨hw, h⟩
    · rintro (h | h)
      · exact Or.inl h
      · exact Or.inr h.2

theorem trieIsEnd_logSearch (sl : SearchLogger) (word : Word) (now : Nat) (rf : Bool)
    (q : Word) :
    trieIsEnd (logSearch sl word now rf).1.prefixTree q = trieIsEnd sl.prefixTree q ∨
      trieIsEnd (logSearch sl word now rf).1.prefixTree q = some false := by
  by_cases hw : word = []
  · subst hw
    rw [logSearch_nil]
    exact Or.inl rfl
  · rw [logSearch_eq sl word now rf hw]
    have hpres := hweAux_preserves (normalizeWord word) now rf (normalizeWord word) []
      (setLastSeen (insertPath sl.prefixTree (normalizeWord word)) (normalizeWord word) now) sl.db
    unfold handleWordExtension
    rw [hpres.2.2 q, trieIsEnd_setLastSeen]
    rcases findNode_insertPath_cases sl.prefixTree (normalizeWord word) q with h | h
    · unfold trieIsEnd
      rw [h]
      exact Or.inl rfl
    · refine Or.inr ?_
      rw [trieIsEnd_eq_of_findNode h.2.2.2]
      rfl

theorem noDupKeys_logSearch {sl : SearchLogger} (h : NoDupKeys sl.prefixTree)
    (word : Word) (now : Nat) (rf : Bool) :
    NoDupKeys (logSearch sl word now rf).1.prefixTree := by
  by_cases hw : word = []
  · subst hw
    rw [logSearch_nil]
    exact h
  · rw [logSearch_eq sl word now rf hw]
    have hpres := hweAux_preserves (normalizeWord word) now rf (normalizeWord word) []
      (setLastSeen (insertPath sl.prefixTree (normalizeWord word)) (normalizeWord word) now) sl.db
    unfold handleWordExtension NoDupKeys
    rw [hpres.2.1]
    unfold setLastSeen
    rw [updateNode_map_fst]
    exact noDupKeys_insertPath h (normalizeWord word)

theorem hasRoot_logSearch {sl : SearchLogger} (h : hasRoot sl.prefixTree)
    (word : Word) (now : Nat) (rf : Bool) :
    hasRoot (logSearch sl word now rf).1.prefixTree := by
  by_cases hw : word = []
  · subst hw
    rw [logSearch_nil]
    exact h
  · rw [logSearch_eq sl word now rf hw]
    have hpres := hweAux_preserves (normalizeWord word) now rf (normalizeWord word) []
      (setLastSeen (insertPath sl.prefixTree (normalizeWord word)) (normalizeWord word) now) sl.db
    unfold handleWordExtension hasRoot
    rw [isSome_of_map_fst_eq hpres.2.1]
    unfold setLastSeen
    rw [findNode_updateNode_isSome]
    rw [findNode_insertPath_isSome]
    exact Or.inl h

theorem logSearch_noAction (sl : SearchLogger) (word : Word) (now : Nat) (rf : Bool)
    (hw : word ≠ [])
    (H : ∀ p d, p <+: normalizeWord word → p ≠ normalizeWord word →
      findNode sl.prefixTree p = some d → d.isEndOfWord = true → d.dbID = none) :
    logSearch sl word now rf =
      ({ sl with prefixTree :=
          setLastSeen (insertPath sl.prefixTree (normalizeWord word)) (normalizeWord word) now },
        false) := by
  rw [logSearch_eq sl word now rf hw]
  have H2 : ∀ p d, p <+: normalizeWord word → p ≠ normalizeWord word →
      findNode (setLastSeen (insertPath sl.prefixTree (normalizeWord word))
        (normalizeWord word) now) p = some d →
      d.isEndOfWord = true → d.dbID = none := by
    intro p d hp hpne hf hie
    unfold setLastSeen at hf
    rw [findNode_updateNode_ne _ _ _ hpne] at hf
    rcases findNode_insertPath_cases sl.prefixTree (normalizeWord word) p with h | h
    · rw [h] at hf
      exact H p d hp hpne hf hie
    · rw [h.2.2.2] at hf
      injection hf with hd
      rw [← hd] at hie
      exact absurd hie (by simp [NodeData.init])
  have hna := hweAux_noAction (normalizeWord word) now rf (normalizeWord word) []
    (setLastSeen (insertPath sl.prefixTree (normalizeWord word)) (normalizeWord word) now) sl.db
    (by simp) H2
  unfold handleWordExtension
  rw [hna]

theorem sweepStep_cases (now : Nat) (fails : List Word) (acc : Trie × MockDB × List Word)
    (w : Word) :
    sweepStep now fails acc w = acc ∨
    (∃ nd, findNode acc.1 w = some nd ∧ nd.dbID = none ∧ isPrefixOfAnyWord acc.1 w = false ∧
      w ∈ fails ∧ sweepStep now fails acc w = (setIsEnd acc.1 w true, acc.2.1, acc.2.2)) ∨
    (∃ nd, findNode acc.1 w = some nd ∧ nd.dbID = none ∧ isPrefixOfAnyWord acc.1 w = false ∧
      w ∉ fails ∧ sweepStep now fails acc w =
        (setDbID (setIsEnd acc.1 w true) w (some (dbInsertOrReplace acc.2.1 w now).1),
         (dbInsertOrReplace acc.2.1 w now).2, acc.2.2 ++ [w])) := by
  simp only [sweepStep]
  split
  · exact Or.inl rfl
  · rename_i nd hf
    split
    · exact Or.inl rfl
    · rename_i hd
      have hd2 : nd.dbID = none := not_not.mp hd
      split
      · exact Or.inl rfl
      · rename_i hs
        have hs2 : isPrefixOfAnyWord acc.1 w = false := by
          cases h2 : isPrefixOfAnyWord acc.1 w
          · rfl
          · exact absurd h2 hs
        split
        · rename_i hfl
          exact Or.inr (Or.inl ⟨nd, hf, hd2, hs2, hfl, rfl⟩)
        · rename_i hfl
          exact Or.inr (Or.inr ⟨nd, hf, hd2, hs2, hfl, rfl⟩)

theorem sweepStep_preserves (now : Nat) (fails : List Word) (acc : Trie × MockDB × List Word)
    (w : Word) :
    (∀ q, trieLastSeen (sweepStep now fails acc w).1 q = trieLastSeen acc.1 q) ∧
    ((sweepStep now fails acc w).1.map Prod.fst = acc.1.map Prod.fst) ∧
    (∀ v, isPrefixOfAnyWord (sweepStep now fails acc w).1 v = isPrefixOfAnyWord acc.1 v) := by
  rcases sweepStep_cases now fails acc w with h | ⟨nd, _, _, _, _, h⟩ | ⟨nd, _, _, _, _, h⟩
  · rw [h]
    exact ⟨fun q => rfl, rfl, fun v => rfl⟩
  · rw [h]
    dsimp only
    refine ⟨fun q => trieLastSeen_setIsEnd _ _ _ _, ?_, fun v => ?_⟩
    · unfold setIsEnd
      rw [updateNode_map_fst]
    · unfold setIsEnd
      exact isPrefixOfAnyWord_updateNode acc.1 w
        (fun d => { d with isEndOfWord := true }) (fun d => rfl) v
  · rw [h]
    dsimp only
    refine ⟨fun q => ?_, ?_, fun v => ?_⟩
    · rw [trieLastSeen_setDbID, trieLastSeen_setIsEnd]
    · unfold setDbID setIsEnd
      rw [updateNode_map_fst, updateNode_map_fst]
    · unfold setDbID
      rw [isPrefixOfAnyWord_updateNode (setIsEnd acc.1 w true) w
        (fun d => { d with dbID := some (dbInsertOrReplace acc.2.1 w now).1 }) (fun d => rfl) v]
      unfold setIsEnd
      exact isPrefixOfAnyWord_updateNode acc.1 w
        (fun d => { d with isEndOfWord := true }) (fun d => rfl) v

theorem sweepStep_untouched (now : Nat) (fails : List Word) (acc : Trie × MockDB × List Word)
    {w q : Word} (hq : q ≠ w) :
    trieDbID (sweepStep now fails acc w).1 q = trieDbID acc.1 q ∧
    trieIsEnd (sweepStep now fails acc w).1 q = trieIsEnd acc.1 q := by
  rcases sweepStep_cases now fails acc w with h | ⟨nd, _, _, _, _, h⟩ | ⟨nd, _, _, _, _, h⟩
  · rw [h]
    exact ⟨rfl, rfl⟩
  · rw [h]
    dsimp only
    unfold setIsEnd trieDbID trieIsEnd
    rw [findNode_updateNode_ne _ _ _ hq]
    exact ⟨rfl, rfl⟩
  · rw [h]
    dsimp only
    unfold setDbID setIsEnd trieDbID trieIsEnd
    rw [findNode_updateNode_ne _ _ _ hq, findNode_updateNode_ne _ _ _ hq]
    exact ⟨rfl, rfl⟩

theorem sweepStep_store (now : Nat) (fails : List Word) (acc : Trie × MockDB × List Word)
    {w : Word} {nd : NodeData} (hf : findNode acc.1 w = some nd) (hd : nd.dbID = none)
    (hs : isPrefixOfAnyWord acc.1 w = false) (hfl : w ∉ fails) :
    sweepStep now fails acc w =
      (setDbID (setIsEnd acc.1 w true) w (some (dbInsertOrReplace acc.2.1 w now).1),
       (dbInsertOrReplace acc.2.1 w now).2, acc.2.2 ++ [w]) := by
  simp only [sweepStep, hf, hd, hs]
  simp only [if_neg (by simp : ¬(none : Option Nat) ≠ none), Bool.false_eq_true,
    if_false, if_neg hfl]

theorem sweepStep_fail (now : Nat) (fails : List Word) (acc : Trie × MockDB × List Word)
    {w : Word} {nd : NodeData} (hf : findNode acc.1 w = some nd) (hd : nd.dbID = none)
    (hs : isPrefixOfAnyWord acc.1 w = false) (hfl : w ∈ fails) :
    sweepStep now fails acc w = (setIsEnd acc.1 w true, acc.2.1, acc.2.2) := by
  simp only [sweepStep, hf, hd, hs]
  simp only [if_neg (by simp : ¬(none : Option Nat) ≠ none), Bool.false_eq_true,
    if_false, if_pos hfl]

theorem sweepStep_stored_sub (now : Nat) (fails : List Word) (acc : Trie × MockDB × List Word)
    (w : Word) : ∃ add, (sweepStep now fails acc w).2.2 = acc.2.2 ++ add := by
  rcases sweepStep_cases now fails acc w with h | ⟨nd, _, _, _, _, h⟩ | ⟨nd, _, _, _, _, h⟩
  · exact ⟨[], by rw [h, List.append_nil]⟩
  · exact ⟨[], by rw [h, List.append_nil]⟩
  · exact ⟨[w], by rw [h]⟩

theorem sweepFold_preserves (now : Nat) (fails : List Word) (l : List Word) :
    ∀ acc,
      (∀ q, trieLastSeen (l.foldl (sweepStep now fails) acc).1 q = trieLastSeen acc.1 q) ∧
      ((l.foldl (sweepStep now fails) acc).1.map Prod.fst = acc.1.map Prod.fst) ∧
      (∀ v, isPrefixOfAnyWord (l.foldl (sweepStep now fails) acc).1 v =
        isPrefixOfAnyWord acc.1 v) := by
  induction l with
  | nil => exact fun acc => ⟨fun q => rfl, rfl, fun v => rfl⟩
  | cons w l ih =>
    intro acc
    rw [List.foldl_cons]
    obtain ⟨ih1, ih2, ih3⟩ := ih (sweepStep now fails acc w)
    obtain ⟨s1, s2, s3⟩ := sweepStep_preserves now fails acc w
    exact ⟨fun q => (ih1 q).trans (s1 q), ih2.trans s2, fun v => (ih3 v).trans (s3 v)⟩

theorem sweepFold_untouched (now : Nat) (fails : List Word) (l : List Word) :
    ∀ acc (q : Word), q ∉ l →
      trieDbID (l.foldl (sweepStep now fails) acc).1 q = trieDbID acc.1 q ∧
      trieIsEnd (l.foldl (sweepStep now fails) acc).1 q = trieIsEnd acc.1 q := by
  induction l with
  | nil => exact fun acc q _ => ⟨rfl, rfl⟩
  | cons w l ih =>
    intro acc q hq
    rw [List.foldl_cons]
    have hqw : q ≠ w := fun h => hq (h ▸ List.mem_cons_self w l)
    have hql : q ∉ l := fun h => hq (List.mem_cons_of_mem w h)
    obtain ⟨ih1, ih2⟩ := ih (sweepStep now fails acc w) q hql
    obtain ⟨s1, s2⟩ := sweepStep_untouched now fails acc hqw
    exact ⟨ih1.trans s1, ih2.trans s2⟩

theorem sweepFold_stored_sub (now : Nat) (fails : List Word) (l : List Word) :
    ∀ acc, ∃ add, (l.foldl (sweepStep now fails) acc).2.2 = acc.2.2 ++ add := by
  induction l with
  | nil => exact fun acc => ⟨[], by rw [List.foldl_nil, List.append_nil]⟩
  | cons w l ih =>
    intro acc
    rw [List.foldl_cons]
    obtain ⟨a1, h1⟩ := sweepStep_stored_sub now fails acc w
    obtain ⟨a2, h2⟩ := ih (sweepStep now fails acc w)
    exact ⟨a1 ++ a2, by rw [h2, h1, List.append_assoc]⟩

theorem sweepFold_skipAll (now : Nat) (fails : List Word) (l : List Word) (acc : Trie × MockDB × List Word)
    (h : ∀ w ∈ l, sweepStep now fails acc w = acc) :
    l.foldl (sweepStep now fails) acc = acc := by
  induction l with
  | nil => rfl
  | cons w l ih =>
    rw [List.foldl_cons, h w (List.mem_cons_self w l)]
    exact ih (fun v hv => h v (List.mem_cons_of_mem w hv))

theorem sweepFold_stored_mem (now : Nat) (fails : List Word) (t0 : Trie) (l : List Word) :
    ∀ (acc : Trie × MockDB × List Word),
      l.Nodup →
      (∀ v, isPrefixOfAnyWord acc.1 v = isPrefixOfAnyWord t0 v) →
      (∀ w ∈ l, trieDbID acc.1 w = trieDbID t0 w) →
      (∀ w ∈ l, (findNode acc.1 w).isSome = (findNode t0 w).isSome) →
      ∀ A, A ∈ (l.foldl (sweepStep now fails) acc).2.2 →
        A ∈ acc.2.2 ∨ (A ∈ l ∧ trieDbID t0 A = none ∧ (findNode t0 A).isSome ∧
          isPrefixOfAnyWord t0 A = false ∧ A ∉ fails) := by
  induction l with
  | nil => exact fun acc _ _ _ _ A hA => Or.inl hA
  | cons w l ih =>
    intro acc hnd hpre hdb hks A hA
    rw [List.foldl_cons] at hA
    have hwl : w ∉ l := (List.nodup_cons.mp hnd).1
    have hnd2 : l.Nodup := (List.nodup_cons.mp hnd).2
    have hpre2 : ∀ v, isPrefixOfAnyWord (sweepStep now fails acc w).1 v =
        isPrefixOfAnyWord t0 v := by
      intro v
      rw [(sweepStep_preserves now fails acc w).2.2 v]
      exact hpre v
    have hdb2 : ∀ v ∈ l, trieDbID (sweepStep now fails acc w).1 v = trieDbID t0 v := by
      intro v hv
      have hvw : v ≠ w := fun h => hwl (h ▸ hv)
      rw [(sweepStep_untouched now fails acc hvw).1]
      exact hdb v (List.mem_cons_of_mem w hv)
    have hks2 : ∀ v ∈ l, (findNode (sweepStep now fails acc w).1 v).isSome =
        (findNode t0 v).isSome := by
      intro v hv
      rw [isSome_of_map_fst_eq (sweepStep_preserves now fails acc w).2.1 v]
      exact hks v (List.mem_cons_of_mem w hv)
    rcases ih (sweepStep now fails acc w) hnd2 hpre2 hdb2 hks2 A hA with h | h
    · rcases sweepStep_cases now fails acc w with hc | ⟨nd, _, _, _, _, hc⟩ |
        ⟨nd, hf, hd, hs, hfl, hc⟩
      · rw [hc] at h
        exact Or.inl h
      · rw [hc] at h
        exact Or.inl h
      · rw [hc] at h
        dsimp only at h
        rcases List.mem_append.mp h with h2 | h2
        · exact Or.inl h2
        · have hAw : A = w := by simpa using h2
          subst hAw
          refine Or.inr ⟨List.mem_cons_self A l, ?_, ?_, ?_, hfl⟩
          · rw [← hdb A (List.mem_cons_self A l), trieDbID_eq_of_findNode hf, hd]
          · rw [← hks A (List.mem_cons_self A l), hf]
            rfl
          · rw [← hpre A]
            exact hs
    · exact Or.inr ⟨List.mem_cons_of_mem w h.1, h.2⟩

theorem sweepFold_stores (now : Nat) (fails : List Word) (t0 : Trie) (l : List Word) :
    ∀ (acc : Trie × MockDB × List Word),
      l.Nodup →
      (∀ v, isPrefixOfAnyWord acc.1 v = isPrefixOfAnyWord t0 v) →
      (∀ w ∈ l, trieDbID acc.1 w = trieDbID t0 w) →
      (∀ w ∈ l, (findNode acc.1 w).isSome = (findNode t0 w).isSome) →
      ∀ A ∈ l, trieDbID t0 A = none → (findNode t0 A).isSome →
        isPrefixOfAnyWord t0 A = false → A ∉ fails →
        A ∈ (l.foldl (sweepStep now fails) acc).2.2 ∧
        (∃ i, trieDbID (l.foldl (sweepStep now fails) acc).1 A = some i) ∧
        trieIsEnd (l.foldl (sweepStep now fails) acc).1 A = some true := by
  induction l with
  | nil => exact fun acc _ _ _ _ A hA => absurd hA (by simp)
  | cons w l ih =>
    intro acc hnd hpre hdb hks A hAmem hdA hkA hsA hfA
    have hwl : w ∉ l := (List.nodup_cons.mp hnd).1
    have hnd2 : l.Nodup := (List.nodup_cons.mp hnd).2
    rw [List.foldl_cons]
    rcases List.mem_cons.mp hAmem with hAw | hAl
    · subst hAw
      have hfacc : ∃ nd, findNode acc.1 A = some nd ∧ nd.dbID = none := by
        have h1 : (findNode acc.1 A).isSome = true := by
          rw [hks A (List.mem_cons_self A l)]
          exact hkA
        obtain ⟨nd, hnd3⟩ := Option.isSome_iff_exists.mp h1
        refine ⟨nd, hnd3, ?_⟩
        have := hdb A (List.mem_cons_self A l)
        rw [trieDbID_eq_of_findNode hnd3, hdA] at this
        exact this
      obtain ⟨nd, hf, hd⟩ := hfacc
      have hs : isPrefixOfAnyWord acc.1 A = false := by
        rw [hpre A]
        exact hsA
      rw [sweepStep_store now fails acc hf hd hs hfA]
      have hAset : (findNode (setIsEnd acc.1 A true) A).isSome := by
        unfold setIsEnd
        rw [findNode_updateNode_isSome, hf]
        rfl
      have hstep1 : trieDbID (setDbID (setIsEnd acc.1 A true) A
          (some (dbInsertOrReplace acc.2.1 A now).1)) A =
          some (dbInsertOrReplace acc.2.1 A now).1 :=
        trieDbID_setDbID_self hAset _
      have hstep2 : trieIsEnd (setDbID (setIsEnd acc.1 A true) A
          (some (dbInsertOrReplace acc.2.1 A now).1)) A = some true := by
        rw [trieIsEnd_setDbID]
        exact trieIsEnd_setIsEnd_self (by rw [hf]; rfl) true
      obtain ⟨hu1, hu2⟩ := sweepFold_untouched now fails l
        (setDbID (setIsEnd acc.1 A true) A (some (dbInsertOrReplace acc.2.1 A now).1),
          (dbInsertOrReplace acc.2.1 A now).2, acc.2.2 ++ [A]) A hwl
      refine ⟨?_, ⟨_, hu1.trans hstep1⟩, hu2.trans hstep2⟩
      obtain ⟨add, hadd⟩ := sweepFold_stored_sub now fails l _
      rw [hadd]
      dsimp only
      exact List.mem_append.mpr (Or.inl (List.mem_append.mpr (Or.inr (by simp))))
    · have hpre2 : ∀ v, isPrefixOfAnyWord (sweepStep now fails acc w).1 v =
          isPrefixOfAnyWord t0 v := by
        intro v
        rw [(sweepStep_preserves now fails acc w).2.2 v]
        exact hpre v
      have hdb2 : ∀ v ∈ l, trieDbID (sweepStep now fails acc w).1 v = trieDbID t0 v := by
        intro v hv
        have hvw : v ≠ w := fun h => hwl (h ▸ hv)
        rw [(sweepStep_untouched now fails acc hvw).1]
        exact hdb v (List.mem_cons_of_mem w hv)
      have hks2 : ∀ v ∈ l, (findNode (sweepStep now fails acc w).1 v).isSome =
          (findNode t0 v).isSome := by
        intro v hv
        rw [isSome_of_map_fst_eq (sweepStep_preserves now fails acc w).2.1 v]
        exact hks v (List.mem_cons_of_mem w hv)
      exact ih (sweepStep now fails acc w) hnd2 hpre2 hdb2 hks2 A hAl hdA hkA hsA hfA

theorem sweepFold_failKeeps (now : Nat) (fails : List Word) (t0 : Trie) (l : List Word) :
    ∀ (acc : Trie × MockDB × List Word),
      l.Nodup →
      (∀ v, isPrefixOfAnyWord acc.1 v = isPrefixOfAnyWord t0 v) →
      (∀ w ∈ l, trieDbID acc.1 w = trieDbID t0 w) →
      ∀ A ∈ l, trieDbID t0 A = none → A ∈ fails →
        trieDbID (l.foldl (sweepStep now fails) acc).1 A = none := by
  induction l with
  | nil => exact fun acc _ _ _ A hA => absurd hA (by simp)
  | cons w l ih =>
    intro acc hnd hpre hdb A hAmem hdA hfA
    have hwl : w ∉ l := (List.nodup_cons.mp hnd).1
    have hnd2 : l.Nodup := (List.nodup_cons.mp hnd).2
    rw [List.foldl_cons]
    rcases List.mem_cons.mp hAmem with hAw | hAl
    · subst hAw
      have hstep : trieDbID (sweepStep now fails acc A).1 A = trieDbID acc.1 A := by
        rcases sweepStep_cases now fails acc A with hc | ⟨nd, hf, hd, hs, hfl, hc⟩ |
            ⟨nd, hf, hd, hs, hfl, hc⟩
        · rw [hc]
        · rw [hc]
          dsimp only
          rw [trieDbID_setIsEnd]
        · exact absurd hfA hfl
      have := (sweepFold_untouched now fails l (sweepStep now fails acc A) A hwl).1
      rw [this, hstep, hdb A (List.mem_cons_self A l), hdA]
    · have hpre2 : ∀ v, isPrefixOfAnyWord (sweepStep now fails acc w).1 v =
          isPrefixOfAnyWord t0 v := by
        intro v
        rw [(sweepStep_preserves now fails acc w).2.2 v]
        exact hpre v
      have hdb2 : ∀ v ∈ l, trieDbID (sweepStep now fails acc w).1 v = trieDbID t0 v := by
        intro v hv
        have hvw : v ≠ w := fun h => hwl (h ▸ hv)
        rw [(sweepStep_untouched now fails acc hvw).1]
        exact hdb v (List.mem_cons_of_mem w hv)
      exact ih (sweepStep now fails acc w) hnd2 hpre2 hdb2 A hAl hdA hfA

theorem sweepFold_single (now : Nat) (fails : List Word) (l1 l2 : List Word) (W : Word)
    (acc : Trie × MockDB × List Word) (ndW : NodeData)
    (hskip : ∀ w, w ∈ l1 ∨ w ∈ l2 → sweepStep now fails acc w = acc)
    (hskip2 : ∀ w, w ∈ l2 →
      sweepStep now fails
        (setDbID (setIsEnd acc.1 W true) W (some (dbInsertOrReplace acc.2.1 W now).1),
         (dbInsertOrReplace acc.2.1 W now).2, acc.2.2 ++ [W]) w =
        (setDbID (setIsEnd acc.1 W true) W (some (dbInsertOrReplace acc.2.1 W now).1),
         (dbInsertOrReplace acc.2.1 W now).2, acc.2.2 ++ [W]))
    (hf : findNode acc.1 W = some ndW) (hd : ndW.dbID = none)
    (hs : isPrefixOfAnyWord acc.1 W = false) (hfl : W ∉ fails) :
    (l1 ++ W :: l2).foldl (sweepStep now fails) acc =
      (setDbID (setIsEnd acc.1 W true) W (some (dbInsertOrReplace acc.2.1 W now).1),
       (dbInsertOrReplace acc.2.1 W now).2, acc.2.2 ++ [W]) := by
  rw [List.foldl_append]
  rw [sweepFold_skipAll now fails l1 acc (fun w hw => hskip w (Or.inl hw))]
  rw [List.foldl_cons]
  rw [sweepStep_store now fails acc hf hd hs hfl]
  exact sweepFold_skipAll now fails l2 _ hskip2

theorem mem_timedOutWords_iff {t : Trie} (hnd : NoDupKeys t) (cutoff : Nat) (q : Word) :
    q ∈ timedOutWords t cutoff ↔ ∃ τ, trieLastSeen t q = some τ ∧ τ < cutoff := by
  unfold timedOutWords
  constructor
  · intro h
    obtain ⟨e, he, rfl⟩ := List.mem_map.mp h
    obtain ⟨he2, hp⟩ := List.mem_filter.mp he
    have hfe : findNode t e.1 = some e.2 := findNode_of_mem hnd (by cases e; exact he2)
    rw [trieLastSeen_eq_of_findNode hfe]
    cases hls : e.2.lastSeen with
    | none => rw [hls] at hp; simp at hp
    | some τ =>
      rw [hls] at hp
      simp only [decide_eq_true_eq] at hp
      exact ⟨τ, rfl, hp⟩
  · rintro ⟨τ, h1, h2⟩
    cases hf : findNode t q with
    | none => rw [trieLastSeen_eq_none_of_findNode hf] at h1; cases h1
    | some d =>
      rw [trieLastSeen_eq_of_findNode hf] at h1
      refine List.mem_map.mpr ⟨(q, d), List.mem_filter.mpr ⟨mem_of_findNode hf, ?_⟩, rfl⟩
      rw [h1]
      simp [h2]

theorem nodup_timedOutWords {t : Trie} (hnd : NoDupKeys t) (cutoff : Nat) :
    (timedOutWords t cutoff).Nodup := by
  unfold timedOutWords
  have hsub : List.Sublist ((t.filter (fun e =>
      match e.2.lastSeen with
      | some ts => decide (ts < cutoff)
      | none => false)).map Prod.fst) (t.map Prod.fst) :=
    (List.filter_sublist t).map Prod.fst
  exact hsub.nodup hnd

theorem timedOutWords_sub {t : Trie} (cutoff : Nat) (q : Word)
    (h : q ∈ timedOutWords t cutoff) : (findNode t q).isSome := by
  unfold timedOutWords at h
  obtain ⟨e, he, rfl⟩ := List.mem_map.mp h
  obtain ⟨he2, _⟩ := List.mem_filter.mp he
  rw [findNode_isSome_iff_mem_keys]
  exact List.mem_map.mpr ⟨e, he2, rfl⟩

theorem step_submit (sl : SearchLogger) (w : Word) (t : Nat) (rf : Bool) :
    step sl (Event.submit w t rf) = (logSearch sl w t rf).1 := rfl

theorem step_sweep (sl : SearchLogger) (t : Nat) (fs : List Word) :
    step sl (Event.sweep t fs) = (processTimedOutWords sl t fs).1 := rfl

theorem run_nil (sl : SearchLogger) : run sl [] = sl := rfl

theorem run_cons (sl : SearchLogger) (e : Event) (evs : List Event) :
    run sl (e :: evs) = run (step sl e) evs := rfl

theorem sweep_tree (sl : SearchLogger) (now : Nat) (fails : List Word) :
    (processTimedOutWords sl now fails).1.prefixTree =
      ((timedOutWords sl.prefixTree (now - sl.timeout)).foldl (sweepStep now fails)
        (sl.prefixTree, sl.db, [])).1 := rfl

theorem sweep_db (sl : SearchLogger) (now : Nat) (fails : List Word) :
    (processTimedOutWords sl now fails).1.db =
      ((timedOutWords sl.prefixTree (now - sl.timeout)).foldl (sweepStep now fails)
        (sl.prefixTree, sl.db, [])).2.1 := rfl

theorem sweep_timeout (sl : SearchLogger) (now : Nat) (fails : List Word) :
    (processTimedOutWords sl now fails).1.timeout = sl.timeout := rfl

theorem trieLastSeen_sweep (sl : SearchLogger) (now : Nat) (fails : List Word) (q : Word) :
    trieLastSeen (processTimedOutWords sl now fails).1.prefixTree q =
      trieLastSeen sl.prefixTree q := by
  rw [sweep_tree]
  exact (sweepFold_preserves now fails _ _).1 q

theorem noDupKeys_sweep {sl : SearchLogger} (h : NoDupKeys sl.prefixTree)
    (now : Nat) (fails : List Word) :
    NoDupKeys (processTimedOutWords sl now fails).1.prefixTree := by
  rw [sweep_tree]
  unfold NoDupKeys
  rw [(sweepFold_preserves now fails _ _).2.1]
  exact h

theorem hasRoot_sweep {sl : SearchLogger} (h : hasRoot sl.prefixTree)
    (now : Nat) (fails : List Word) :
    hasRoot (processTimedOutWords sl now fails).1.prefixTree := by
  rw [sweep_tree]
  unfold hasRoot
  rw [isSome_of_map_fst_eq (sweepFold_preserves now fails _ _).2.1]
  exact h

theorem hasRoot_step {sl : SearchLogger} (h : hasRoot sl.prefixTree) (e : Event) :
    hasRoot (step sl e).prefixTree := by
  cases e with
  | submit w t rf => exact hasRoot_logSearch h w t rf
  | sweep t fs => exact hasRoot_sweep h t fs

theorem noDupKeys_step {sl : SearchLogger} (h : NoDupKeys sl.prefixTree) (e : Event) :
    NoDupKeys (step sl e).prefixTree := by
  cases e with
  | submit w t rf => exact noDupKeys_logSearch h w t rf
  | sweep t fs => exact noDupKeys_sweep h t fs

theorem timeout_step (sl : SearchLogger) (e : Event) : (step sl e).timeout = sl.timeout := by
  cases e with
  | submit w t rf =>
    by_cases hw : w = []
    · subst hw
      rfl
    · rw [step_submit, logSearch_eq sl w t rf hw]
  | sweep t fs => rfl

theorem hasRoot_run {sl : SearchLogger} (h : hasRoot sl.prefixTree) (evs : List Event) :
    hasRoot (run sl evs).prefixTree := by
  induction evs generalizing sl with
  | nil => exact h
  | cons e evs ih => exact ih (hasRoot_step h e)

theorem noDupKeys_run {sl : SearchLogger} (h : NoDupKeys sl.prefixTree) (evs : List Event) :
    NoDupKeys (run sl evs).prefixTree := by
  induction evs generalizing sl with
  | nil => exact h
  | cons e evs ih => exact ih (noDupKeys_step h e)

theorem timeout_run (sl : SearchLogger) (evs : List Event) :
    (run sl evs).timeout = sl.timeout := by
  induction evs generalizing sl with
  | nil => rfl
  | cons e evs ih => exact (ih (step sl e)).trans (timeout_step sl e)

/-- The time of the last submission in the trace whose nonempty input
normalizes to the given word, if any. -/
def lastSubmitTime : List Event → Word → Option Nat
  | [], _ => none
  | Event.submit w t _ :: r, p =>
      match lastSubmitTime r p with
      | some τ => some τ
      | none => if w ≠ [] ∧ p = normalizeWord w then some t else none
  | Event.sweep _ _ :: r, p => lastSubmitTime r p

theorem trieLastSeen_run (evs : List Event) :
    ∀ (sl : SearchLogger), hasRoot sl.prefixTree → ∀ p,
      trieLastSeen (run sl evs).prefixTree p =
        match lastSubmitTime evs p with
        | some τ => some τ
        | none => trieLastSeen sl.prefixTree p := by
  induction evs with
  | nil => intro sl _ p; rfl
  | cons e evs ih =>
    intro sl hroot p
    rw [run_cons, ih (step sl e) (hasRoot_step hroot e) p]
    cases e with
    | submit w t rf =>
      rw [step_submit, trieLastSeen_logSearch sl w t rf hroot p]
      show _ = match lastSubmitTime (Event.submit w t rf :: evs) p with
        | some τ => some τ
        | none => trieLastSeen sl.prefixTree p
      rw [show lastSubmitTime (Event.submit w t rf :: evs) p =
        (match lastSubmitTime evs p with
         | some τ => some τ
         | none => if w ≠ [] ∧ p = normalizeWord w then some t else none) from rfl]
      cases lastSubmitTime evs p with
      | some τ => rfl
      | none =>
        by_cases hc : w ≠ [] ∧ p = normalizeWord w
        · rw [if_pos hc, if_pos hc]
        · rw [if_neg hc, if_neg hc]
    | sweep t fs =>
      rw [step_sweep, trieLastSeen_sweep sl t fs p]
      rfl

theorem buildTrie_isSome_mono {t : Trie} {q : Word} (h : (findNode t q).isSome)
    (w : Word) (now : Nat) : (findNode (buildTrieFromWord t w now) q).isSome := by
  unfold buildTrieFromWord setLastSeen setIsEnd
  rw [findNode_updateNode_isSome, findNode_updateNode_isSome]
  obtain ⟨d, hd⟩ := Option.isSome_iff_exists.mp h
  rw [findNode_insertPath_of_some hd]
  rfl

theorem buildTrie_self_isSome {t : Trie} (hroot : hasRoot t) (w : Word) (now : Nat) :
    (findNode (buildTrieFromWord t w now) w).isSome := by
  unfold buildTrieFromWord setLastSeen setIsEnd
  rw [findNode_updateNode_isSome, findNode_updateNode_isSome]
  rw [findNode_insertPath_isSome]
  by_cases hw : w = []
  · subst hw
    exact Or.inl hroot
  · cases hf : findNode t w with
    | some d => exact Or.inl rfl
    | none => exact Or.inr ⟨hw, List.prefix_refl w⟩

theorem buildTrie_hasRoot {t : Trie} (hroot : hasRoot t) (w : Word) (now : Nat) :
    hasRoot (buildTrieFromWord t w now) := buildTrie_isSome_mono hroot w now

theorem buildTrie_noDupKeys {t : Trie} (h : NoDupKeys t) (w : Word) (now : Nat) :
    NoDupKeys (buildTrieFromWord t w now) := by
  unfold buildTrieFromWord setLastSeen setIsEnd NoDupKeys
  rw [updateNode_map_fst, updateNode_map_fst]
  exact noDupKeys_insertPath h w

theorem buildTrie_lastSeen {t : Trie} (hroot : hasRoot t) (w : Word) (now : Nat) (q : Word) :
    trieLastSeen (buildTrieFromWord t w now) q =
      if q = w then some now else trieLastSeen t q := by
  unfold buildTrieFromWord
  by_cases hq : q = w
  · rw [if_pos hq, hq]
    refine trieLastSeen_setLastSeen_self ?_ now
    unfold setIsEnd
    rw [findNode_updateNode_isSome, findNode_insertPath_isSome]
    by_cases hw : w = []
    · subst hw
      exact Or.inl hroot
    · cases hf : findNode t w with
      | some d => exact Or.inl rfl
      | none => exact Or.inr ⟨hw, List.prefix_refl w⟩
  · rw [if_neg hq, trieLastSeen_setLastSeen_ne hq, trieLastSeen_setIsEnd,
      trieLastSeen_insertPath]

theorem buildTrie_dbID (t : Trie) (w : Word) (now : Nat) (q : Word) :
    trieDbID (buildTrieFromWord t w now) q = trieDbID t q := by
  unfold buildTrieFromWord
  rw [trieDbID_setLastSeen, trieDbID_setIsEnd, trieDbID_insertPath]

theorem buildTrie_isEnd_self {t : Trie} (hroot : hasRoot t) (w : Word) (now : Nat) :
    trieIsEnd (buildTrieFromWord t w now) w = some true := by
  unfold buildTrieFromWord
  rw [trieIsEnd_setLastSeen]
  refine trieIsEnd_setIsEnd_self ?_ true
  rw [findNode_insertPath_isSome]
  by_cases hw : w = []
  · subst hw
    exact Or.inl hroot
  · cases hf : findNode t w with
    | some d => exact Or.inl rfl
    | none => exact Or.inr ⟨hw, List.prefix_refl w⟩

theorem buildTrie_isEnd_existing {t : Trie} {q : Word} (hq : (findNode t q).isSome)
    (w : Word) (now : Nat) :
    trieIsEnd (buildTrieFromWord t w now) q = if q = w then some true else trieIsEnd t q := by
  unfold buildTrieFromWord
  obtain ⟨d, hd⟩ := Option.isSome_iff_exists.mp hq
  by_cases hqw : q = w
  · rw [if_pos hqw, hqw]
    rw [trieIsEnd_setLastSeen]
    refine trieIsEnd_setIsEnd_self ?_ true
    rw [hqw] at hd
    rw [findNode_insertPath_of_some hd]
    rfl
  · rw [if_neg hqw, trieIsEnd_setLastSeen, trieIsEnd_setIsEnd_ne hqw]
    unfold trieIsEnd
    rw [findNode_insertPath_of_some hd, hd]

/-- The startup load loop of `loadExistingWords`. -/
def loadWords (ws : List Word) (t : Trie) (now : Nat) : Trie :=
  ws.foldl (fun t2 w => buildTrieFromWord t2 w now) t

theorem newSearchLoggerWithDB_tree (timeout : Nat) (db : MockDB) (now : Nat) :
    (newSearchLoggerWithDB timeout db now).prefixTree = loadWords (dbWords db) emptyTrie now := rfl

theorem loadWords_nil (t : Trie) (now : Nat) : loadWords [] t now = t := rfl

theorem loadWords_cons (w : Word) (ws : List Word) (t : Trie) (now : Nat) :
    loadWords (w :: ws) t now = loadWords ws (buildTrieFromWord t w now) now := rfl

theorem loadWords_append (a b : List Word) (t : Trie) (now : Nat) :
    loadWords (a ++ b) t now = loadWords b (loadWords a t now) now :=
  List.foldl_append _ _ _ _

theorem loadWords_hasRoot {t : Trie} (h : hasRoot t) (ws : List Word) (now : Nat) :
    hasRoot (loadWords ws t now) := by
  induction ws generalizing t with
  | nil => exact h
  | cons w ws ih => exact ih (buildTrie_hasRoot h w now)

theorem loadWords_noDupKeys {t : Trie} (h : NoDupKeys t) (ws : List Word) (now : Nat) :
    NoDupKeys (loadWords ws t now) := by
  induction ws generalizing t with
  | nil => exact h
  | cons w ws ih => exact ih (buildTrie_noDupKeys h w now)

theorem loadWords_lastSeen {t : Trie} (h : hasRoot t) (ws : List Word) (now : Nat)
    (q : Word) :
    trieLastSeen (loadWords ws t now) q =
      if q ∈ ws then some now else trieLastSeen t q := by
  induction ws generalizing t with
  | nil => simp [loadWords_nil]
  | cons w ws ih =>
    rw [loadWords_cons, ih (buildTrie_hasRoot h w now),
      buildTrie_lastSeen h w now q]
    by_cases h1 : q ∈ ws
    · simp [h1]
    · by_cases h2 : q = w
      · simp [h1, h2]
      · simp [h1, h2]

theorem loadWords_dbID (t : Trie) (ws : List Word) (now : Nat) (q : Word) :
    trieDbID (loadWords ws t now) q = trieDbID t q := by
  induction ws generalizing t with
  | nil => rfl
  | cons w ws ih => rw [loadWords_cons, ih, buildTrie_dbID]

theorem loadWords_isEnd_existing {t : Trie} {q : Word} (hq : (findNode t q).isSome)
    (ws : List Word) (now : Nat) :
    trieIsEnd (loadWords ws t now) q = if q ∈ ws then some true else trieIsEnd t q := by
  induction ws generalizing t with
  | nil => simp [loadWords_nil]
  | cons w ws ih =>
    rw [loadWords_cons, ih (buildTrie_isSome_mono hq w now),
      buildTrie_isEnd_existing hq w now]
    by_cases h1 : q ∈ ws
    · simp [h1]
    · by_cases h2 : q = w
      · simp [h1, h2]
      · simp [h1, h2]

theorem loadWords_isEnd_mem {t : Trie} (hroot : hasRoot t) {ws : List Word} {w : Word}
    (hw : w ∈ ws) (now : Nat) : trieIsEnd (loadWords ws t now) w = some true := by
  obtain ⟨a, b, rfl⟩ := List.append_of_mem hw
  rw [loadWords_append, loadWords_cons]
  have hroot2 : hasRoot (loadWords a t now) := loadWords_hasRoot hroot a now
  have hself : (findNode (buildTrieFromWord (loadWords a t now) w now) w).isSome :=
    buildTrie_self_isSome hroot2 w now
  rw [loadWords_isEnd_existing hself b now]
  by_cases h1 : w ∈ b
  · simp [h1]
  · rw [if_neg h1]
    exact buildTrie_isEnd_self hroot2 w now

theorem findNode_emptyTrie (q : Word) :
    findNode emptyTrie q = if q = [] then some NodeData.init else none := by
  unfold emptyTrie
  rw [findNode_cons]
  by_cases h : q = []
  · simp [h]
  · simp [h, findNode_nil, fun hh : [] = q => h hh.symm]

theorem trieLastSeen_emptyTrie (q : Word) : trieLastSeen emptyTrie q = none := by
  unfold trieLastSeen
  rw [findNode_emptyTrie]
  by_cases h : q = [] <;> simp [h, NodeData.init]

theorem trieDbID_emptyTrie (q : Word) : trieDbID emptyTrie q = none := by
  unfold trieDbID
  rw [findNode_emptyTrie]
  by_cases h : q = [] <;> simp [h, NodeData.init]

theorem isEnd_emptyTrie (q : Word) (d : NodeData) (h : findNode emptyTrie q = some d) :
    d.isEndOfWord = false := by
  rw [findNode_emptyTrie] at h
  by_cases hq : q = []
  · rw [if_pos hq] at h
    injection h with h2
    rw [← h2]
    rfl
  · rw [if_neg hq] at h
    cases h

theorem noDupKeys_emptyTrie : NoDupKeys emptyTrie := by
  unfold NoDupKeys emptyTrie
  simp

theorem hasRoot_emptyTrie : hasRoot emptyTrie := by
  unfold hasRoot
  rw [findNode_emptyTrie]
  simp

theorem freshLogger_eq (timeout : Nat) :
    freshLogger timeout =
      { prefixTree := emptyTrie, db := MockDB.empty, timeout := timeout } := rfl

theorem nodup_all_eq_singleton {l : List Word} {w : Word} (hnd : l.Nodup)
    (hall : ∀ x ∈ l, x = w) (hmem : w ∈ l) : l = [w] := by
  cases l with
  | nil => cases hmem
  | cons x rest =>
    have hx : x = w := hall x (List.mem_cons_self x rest)
    subst hx
    have hrest : rest = [] := by
      cases rest with
      | nil => rfl
      | cons y rest2 =>
        have hy : y = x := hall y (List.mem_cons_of_mem x (List.mem_cons_self y rest2))
        have := (List.nodup_cons.mp hnd).1
        rw [hy] at this
        exact absurd (List.mem_cons_self x rest2) this
    rw [hrest]

theorem sweep_noop (sl : SearchLogger) (now : Nat) (fails : List Word)
    (h : ∀ w ∈ timedOutWords sl.prefixTree (now - sl.timeout),
      sweepStep now fails (sl.prefixTree, sl.db, []) w = (sl.prefixTree, sl.db, [])) :
    (processTimedOutWords sl now fails).1 = sl := by
  simp only [processTimedOutWords]
  rw [sweepFold_skipAll now fails _ _ h]

theorem sweep_noCands (sl : SearchLogger) (now : Nat) (fails : List Word)
    (h : timedOutWords sl.prefixTree (now - sl.timeout) = []) :
    (processTimedOutWords sl now fails).1 = sl := by
  refine sweep_noop sl now fails ?_
  rw [h]
  intro w hw
  cases hw

theorem sweep_single_result (sl : SearchLogger) (now : Nat) (fails : List Word) (w : Word)
    (hnd : NoDupKeys sl.prefixTree)
    (h1 : ∃ τ, trieLastSeen sl.prefixTree w = some τ ∧ τ < now - sl.timeout)
    (h2 : ∀ q, q ≠ w → trieLastSeen sl.prefixTree q = none)
    (h3 : trieDbID sl.prefixTree w = none)
    (h5 : w ∉ fails) :
    processTimedOutWords sl now fails =
      ({ sl with
          prefixTree := setDbID (setIsEnd sl.prefixTree w true) w
            (some (dbInsertOrReplace sl.db w now).1),
          db := (dbInsertOrReplace sl.db w now).2 }, [w]) := by
  have h4 : isPrefixOfAnyWord sl.prefixTree w = false := by
    unfold isPrefixOfAnyWord
    cases hf : findNode sl.prefixTree w with
    | none => rfl
    | some d =>
      cases hh : hasAnySearchedDescendants sl.prefixTree w with
      | false => rfl
      | true =>
        obtain ⟨q, hq1, hq2, hq3⟩ := (hasAny_iff hnd w).mp hh
        exact absurd (h2 q (fun he => hq2 he.symm)) hq3
  have hcands : timedOutWords sl.prefixTree (now - sl.timeout) = [w] := by
    refine nodup_all_eq_singleton (nodup_timedOutWords hnd _) ?_ ?_
    · intro x hx
      obtain ⟨τ, hτ1, _⟩ := (mem_timedOutWords_iff hnd _ x).mp hx
      by_contra hxw
      rw [h2 x hxw] at hτ1
      cases hτ1
    · exact (mem_timedOutWords_iff hnd _ w).mpr h1
  obtain ⟨τ, hτ1, _⟩ := h1
  have hfw : ∃ nd, findNode sl.prefixTree w = some nd ∧ nd.dbID = none := by
    cases hf : findNode sl.prefixTree w with
    | none => rw [trieLastSeen_eq_none_of_findNode hf] at hτ1; cases hτ1
    | some nd =>
      refine ⟨nd, rfl, ?_⟩
      rw [trieDbID_eq_of_findNode hf] at h3
      exact h3
  obtain ⟨nd, hf, hd⟩ := hfw
  simp only [processTimedOutWords]
  rw [hcands, List.foldl_cons, List.foldl_nil,
    sweepStep_store now fails (sl.prefixTree, sl.db, []) hf hd h4 h5]
  rfl

/-- The time of the last pair for a word in a submission list (later
entries take precedence). -/
def lastTimeIn : List (Word × Nat) → Word → Option Nat
  | [], _ => none
  | (w, t) :: r, q =>
      match lastTimeIn r q with
      | some τ => some τ
      | none => if q = w then some t else none

theorem lastTimeIn_nil (q : Word) : lastTimeIn [] q = none := rfl

theorem lastTimeIn_append_single (subs : List (Word × Nat)) (w : Word) (t : Nat) (q : Word) :
    lastTimeIn (subs ++ [(w, t)]) q =
      if q = w then some t else lastTimeIn subs q := by
  induction subs with
  | nil =>
    show (match lastTimeIn [] q with
      | some τ => some τ
      | none => if q = w then some t else none) = _
    rw [lastTimeIn_nil]
  | cons s r ih =>
    obtain ⟨w0, t0⟩ := s
    show (match lastTimeIn (r ++ [(w, t)]) q with
      | some τ => some τ
      | none => if q = w0 then some t0 else none) = _
    rw [ih]
    by_cases h : q = w
    · simp [h]
    · rw [if_neg h, if_neg h]
      rfl

theorem lastTimeIn_mem {subs : List (Word × Nat)} {q : Word} {τ : Nat}
    (h : lastTimeIn subs q = some τ) : (q, τ) ∈ subs := by
  induction subs generalizing τ with
  | nil => cases h
  | cons s r ih =>
    obtain ⟨w0, t0⟩ := s
    have h2 : (match lastTimeIn r q with
      | some τ2 => some τ2
      | none => if q = w0 then some t0 else none) = some τ := h
    cases hr : lastTimeIn r q with
    | some τ2 =>
      rw [hr] at h2
      injection h2 with h3
      refine List.mem_cons_of_mem _ ?_
      rw [← h3]
      exact ih hr
    | none =>
      rw [hr] at h2
      by_cases hq : q = w0
      · rw [if_pos hq] at h2
        injection h2 with h3
        rw [hq, ← h3]
        exact List.mem_cons_self _ _
      · rw [if_neg hq] at h2
        cases h2

theorem mem_lastTimeIn_isSome {subs : List (Word × Nat)} {q : Word} {τ0 : Nat}
    (h : (q, τ0) ∈ subs) : ∃ τ, lastTimeIn subs q = some τ := by
  induction subs with
  | nil => cases h
  | cons s r ih =>
    obtain ⟨w0, t0⟩ := s
    show ∃ τ, (match lastTimeIn r q with
      | some τ2 => some τ2
      | none => if q = w0 then some t0 else none) = some τ
    cases hr : lastTimeIn r q with
    | some τ2 => exact ⟨τ2, rfl⟩
    | none =>
      rcases List.mem_cons.mp h with h1 | h1
      · have hq : q = w0 := (congrArg Prod.fst h1)
        rw [if_pos hq]
        exact ⟨t0, rfl⟩
      · obtain ⟨τ, hτ⟩ := ih h1
        rw [hτ] at hr
        cases hr

/-- The reachable-state characterization shared by the convergence
claims: after submitting the chain `subs` of prefixes of `W` (with no
gateway failures), the tree records exactly the submitted timestamps
over the node chain of the longest submission, and the database is
either still empty or holds exactly one record, for `W`, stored at
some sweep time. -/
def ChainState (W : Word) (timeout : Nat) (subs : List (Word × Nat)) (stored : Option Nat)
    (sl : SearchLogger) : Prop :=
  sl.timeout = timeout ∧
  NoDupKeys sl.prefixTree ∧
  hasRoot sl.prefixTree ∧
  (∀ q, (findNode sl.prefixTree q).isSome ↔ (q = [] ∨ (q ≠ [] ∧ ∃ s ∈ subs, q <+: s.1))) ∧
  (∀ q, trieLastSeen sl.prefixTree q = lastTimeIn subs q) ∧
  (match stored with
   | none =>
      (∀ q d, findNode sl.prefixTree q = some d → d.isEndOfWord = false ∧ d.dbID = none) ∧
      sl.db = MockDB.empty
   | some tst =>
      (∃ s ∈ subs, s.1 = W) ∧
      (∀ q d, findNode sl.prefixTree q = some d →
        ((d.isEndOfWord = true ↔ q = W) ∧ d.dbID = (if q = W then some 1 else none))) ∧
      sl.db = MockDB.mk [SearchRecord.mk 1 W tst tst 1] 2)

theorem submit_node_transport (t : Trie) (w : Word) (tnow : Nat) (q : Word) (d : NodeData)
    (h : findNode (setLastSeen (insertPath t w) w tnow) q = some d) :
    (∃ d0, findNode t q = some d0 ∧ d.isEndOfWord = d0.isEndOfWord ∧ d.dbID = d0.dbID) ∨
    (findNode t q = none ∧ d.isEndOfWord = false ∧ d.dbID = none) := by
  unfold setLastSeen at h
  by_cases hq : q = w
  · subst hq
    rw [findNode_updateNode_self] at h
    cases h1 : findNode (insertPath t q) q with
    | none => rw [h1] at h; cases h
    | some d1 =>
      rw [h1] at h
      injection h with h2
      rcases findNode_insertPath_cases t q q with hc | hc
      · rw [hc] at h1
        exact Or.inl ⟨d1, h1, by rw [← h2], by rw [← h2]⟩
      · rw [hc.2.2.2] at h1
        injection h1 with h3
        refine Or.inr ⟨hc.1, ?_, ?_⟩
        · rw [← h2, ← h3]
          rfl
        · rw [← h2, ← h3]
          rfl
  · rw [findNode_updateNode_ne _ _ _ hq] at h
    rcases findNode_insertPath_cases t w q with hc | hc
    · rw [hc] at h
      exact Or.inl ⟨d, h, rfl, rfl⟩
    · rw [hc.2.2.2] at h
      injection h with h3
      refine Or.inr ⟨hc.1, ?_, ?_⟩
      · rw [← h3]
        rfl
      · rw [← h3]
        rfl

theorem chain_submit {W : Word} {timeout : Nat} {subs : List (Word × Nat)}
    {stored : Option Nat} {sl : SearchLogger} (w : Word) (tnow : Nat)
    (hCS : ChainState W timeout subs stored sl)
    (hw : w ≠ []) (hnorm : normalizeWord w = w) (hwW : w <+: W) :
    ChainState W timeout (subs ++ [(w, tnow)]) stored
      (step sl (Event.submit w tnow false)) := by
  obtain ⟨hto, hnd, hroot, hkeys, hseen, hst⟩ := hCS
  have hH : ∀ p d, p <+: normalizeWord w → p ≠ normalizeWord w →
      findNode sl.prefixTree p = some d → d.isEndOfWord = true → d.dbID = none := by
    rw [hnorm]
    intro p d hp hpne hf hie
    cases hsto : stored with
    | none =>
      rw [hsto] at hst
      exact absurd hie (by rw [(hst.1 p d hf).1]; simp)
    | some tst =>
      rw [hsto] at hst
      have h2 : p = W := (hst.2.1 p d hf).1.mp hie
      exfalso
      have hWp : w <+: p := h2 ▸ hwW
      exact hpne (prefix_antisymm hp hWp)
  have hls := logSearch_noAction sl w tnow false hw hH
  rw [step_submit, hls, hnorm]
  have hwSome : (findNode (insertPath sl.prefixTree w) w).isSome := by
    rw [findNode_insertPath_isSome]
    exact Or.inr ⟨hw, List.prefix_refl w⟩
  refine ⟨hto, ?_, ?_, ?_, ?_, ?_⟩
  · exact noDupKeys_updateNode (noDupKeys_insertPath hnd w) _ _
  · show (findNode (setLastSeen (insertPath sl.prefixTree w) w tnow) []).isSome
    unfold setLastSeen
    rw [findNode_updateNode_isSome, findNode_insertPath_isSome]
    exact Or.inl hroot
  · intro q
    unfold setLastSeen
    rw [findNode_updateNode_isSome]
    rw [findNode_insertPath_isSome]
    constructor
    · rintro (h | h)
      · rcases (hkeys q).mp h with h2 | h2
        · exact Or.inl h2
        · exact Or.inr ⟨h2.1, by
            obtain ⟨s, hs1, hs2⟩ := h2.2
            exact ⟨s, List.mem_append.mpr (Or.inl hs1), hs2⟩⟩
      · exact Or.inr ⟨h.1, ⟨(w, tnow), List.mem_append.mpr (Or.inr (by simp)), h.2⟩⟩
    · rintro (h | h)
      · exact Or.inl ((hkeys q).mpr (Or.inl h))
      · obtain ⟨s, hs1, hs2⟩ := h.2
        rcases List.mem_append.mp hs1 with h2 | h2
        · exact Or.inl ((hkeys q).mpr (Or.inr ⟨h.1, s, h2, hs2⟩))
        · have : s = (w, tnow) := by simpa using h2
          rw [this] at hs2
          exact Or.inr ⟨h.1, hs2⟩
  · intro q
    rw [lastTimeIn_append_single]
    by_cases hq : q = w
    · rw [if_pos hq, hq]
      exact trieLastSeen_setLastSeen_self hwSome tnow
    · rw [if_neg hq, trieLastSeen_setLastSeen_ne hq, trieLastSeen_insertPath]
      exact hseen q
  · cases hsto : stored with
    | none =>
      rw [hsto] at hst
      refine ⟨?_, hst.2⟩
      intro q d hfd
      rcases submit_node_transport sl.prefixTree w tnow q d hfd with ⟨d0, h1, h2, h3⟩ | ⟨h1, h2, h3⟩
      · rw [h2, h3]
        exact hst.1 q d0 h1
      · exact ⟨h2, h3⟩
    | some tst =>
      rw [hsto] at hst
      obtain ⟨hWmem, hinv, hdb⟩ := hst
      refine ⟨?_, ?_, hdb⟩
      · obtain ⟨s, hs1, hs2⟩ := hWmem
        exact ⟨s, List.mem_append.mpr (Or.inl hs1), hs2⟩
      · intro q d hfd
        rcases submit_node_transport sl.prefixTree w tnow q d hfd with ⟨d0, h1, h2, h3⟩ | ⟨h1, h2, h3⟩
        · rw [h2, h3]
          exact hinv q d0 h1
        · have hqW : q ≠ W := by
            intro he
            have : (findNode sl.prefixTree q).isSome := by
              by_cases hqe : q = []
              · rw [hqe]
                exact hroot
              · refine (hkeys q).mpr (Or.inr ⟨hqe, ?_⟩)
                obtain ⟨s, hs1, hs2⟩ := hWmem
                refine ⟨s, hs1, ?_⟩
                rw [hs2, ← he]
            rw [h1] at this
            simp at this
          rw [h2, h3, if_neg hqW]
          constructor
          · constructor
            · intro hfalse
              cases hfalse
            · intro hqq
              exact absurd hqq hqW
          · rfl

theorem sweepStep_skip_dbID (now : Nat) (fails : List Word) (acc : Trie × MockDB × List Word)
    {w : Word} {nd : NodeData} (hf : findNode acc.1 w = some nd) (hd : nd.dbID ≠ none) :
    sweepStep now fails acc w = acc := by
  simp only [sweepStep, hf]
  rw [if_pos hd]

theorem sweepStep_skip_suppressed (now : Nat) (fails : List Word) (acc : Trie × MockDB × List Word)
    {w : Word} {nd : NodeData} (hf : findNode acc.1 w = some nd) (hd : nd.dbID = none)
    (hs : isPrefixOfAnyWord acc.1 w = true) :
    sweepStep now fails acc w = acc := by
  simp only [sweepStep, hf, hs]
  rw [if_neg (by simp [hd] : ¬nd.dbID ≠ none)]
  simp

theorem dbInsert_empty (w : Word) (now : Nat) :
    dbInsertOrReplace MockDB.empty w now =
      (1, MockDB.mk [SearchRecord.mk 1 w now now 1] 2) := rfl

theorem chain_sweep_skip {W : Word} {timeout : Nat} {subs : List (Word × Nat)}
    {stored : Option Nat} {sl : SearchLogger} (t : Nat) (fs : List Word)
    (hCS : ChainState W timeout subs stored sl)
    (hskipc : ∀ q τq, lastTimeIn subs q = some τq → τq < t - timeout →
      (stored ≠ none ∧ q = W) ∨ ∃ q2, q <+: q2 ∧ q ≠ q2 ∧ (lastTimeIn subs q2).isSome) :
    step sl (Event.sweep t fs) = sl := by
  obtain ⟨hto, hnd, hroot, hkeys, hseen, hst⟩ := hCS
  rw [step_sweep]
  have hres := sweep_noop sl t fs ?_
  · cases hp : processTimedOutWords sl t fs with
    | mk a b =>
      rw [hp] at hres
      rw [hres]
  · intro w hw
    obtain ⟨τ, hτ1, hτ2⟩ := (mem_timedOutWords_iff hnd _ w).mp hw
    rw [hseen w] at hτ1
    rw [hto] at hτ2
    obtain ⟨nd, hf⟩ := Option.isSome_iff_exists.mp (timedOutWords_sub _ w hw)
    rcases hskipc w τ hτ1 hτ2 with ⟨hsne, hqW⟩ | ⟨q2, h1, h2, h3⟩
    · cases hsto : stored with
      | none => rw [hsto] at hsne; exact absurd rfl hsne
      | some tst =>
        rw [hsto] at hst
        have hdb := (hst.2.1 w nd hf).2
        rw [if_pos hqW] at hdb
        exact sweepStep_skip_dbID t fs _ hf (by rw [hdb]; simp)
    · have hts : trieLastSeen sl.prefixTree q2 ≠ none := by
        rw [hseen q2]
        intro hc
        rw [hc] at h3
        simp at h3
      have hpre : isPrefixOfAnyWord sl.prefixTree w = true := by
        unfold isPrefixOfAnyWord
        rw [hf]
        exact (hasAny_iff hnd w).mpr ⟨q2, h1, h2, hts⟩
      by_cases hd : nd.dbID = none
      · exact sweepStep_skip_suppressed t fs _ hf hd hpre
      · exact sweepStep_skip_dbID t fs _ hf hd

theorem chain_sweep_store {W : Word} {timeout : Nat} {subs : List (Word × Nat)}
    {sl : SearchLogger} (t : Nat) (fs : List Word) {τW : Nat}
    (hCS : ChainState W timeout subs none sl)
    (hWt : lastTimeIn subs W = some τW) (hWτ : τW < t - timeout)
    (hsubsW : ∀ s ∈ subs, s.1 <+: W)
    (hWfs : W ∉ fs) :
    ChainState W timeout subs (some t) (step sl (Event.sweep t fs)) ∧
    (processTimedOutWords sl t fs).2 = [W] := by
  obtain ⟨hto, hnd, hroot, hkeys, hseen, hst⟩ := hCS
  have hWcand : W ∈ timedOutWords sl.prefixTree (t - sl.timeout) := by
    refine (mem_timedOutWords_iff hnd _ W).mpr ⟨τW, ?_, ?_⟩
    · rw [hseen W]; exact hWt
    · rw [hto]; exact hWτ
  obtain ⟨ndW, hfW⟩ := Option.isSome_iff_exists.mp (timedOutWords_sub _ W hWcand)
  have hdW : ndW.dbID = none := (hst.1 W ndW hfW).2
  have hsW : isPrefixOfAnyWord sl.prefixTree W = false := by
    unfold isPrefixOfAnyWord
    rw [hfW]
    cases hh : hasAnySearchedDescendants sl.prefixTree W with
    | false => rfl
    | true =>
      exfalso
      obtain ⟨q, hq1, hq2, hq3⟩ := (hasAny_iff hnd W).mp hh
      rw [hseen q] at hq3
      cases hlq : lastTimeIn subs q with
      | none => rw [hlq] at hq3; exact absurd rfl hq3
      | some τq =>
        have hmem := lastTimeIn_mem hlq
        exact hq2 (prefix_antisymm (hsubsW (q, τq) hmem) hq1).symm
  have hsup : ∀ w, w ≠ W → w ∈ timedOutWords sl.prefixTree (t - sl.timeout) →
      isPrefixOfAnyWord sl.prefixTree w = true := by
    intro w hwW hw
    obtain ⟨τ, hτ1, _⟩ := (mem_timedOutWords_iff hnd _ w).mp hw
    rw [hseen w] at hτ1
    have hpW : w <+: W := hsubsW (w, τ) (lastTimeIn_mem hτ1)
    obtain ⟨nd, hf⟩ := Option.isSome_iff_exists.mp (timedOutWords_sub _ w hw)
    unfold isPrefixOfAnyWord
    rw [hf]
    refine (hasAny_iff hnd w).mpr ⟨W, hpW, hwW, ?_⟩
    rw [hseen W, hWt]
    simp
  have hskip0 : ∀ w, w ≠ W → w ∈ timedOutWords sl.prefixTree (t - sl.timeout) →
      sweepStep t fs (sl.prefixTree, sl.db, ([] : List Word)) w =
        (sl.prefixTree, sl.db, ([] : List Word)) := by
    intro w hwW hw
    obtain ⟨nd, hf⟩ := Option.isSome_iff_exists.mp (timedOutWords_sub _ w hw)
    exact sweepStep_skip_suppressed t fs _ hf (hst.1 w nd hf).2 (hsup w hwW hw)
  have hfindT1 : ∀ q, q ≠ W →
      findNode (setDbID (setIsEnd sl.prefixTree W true) W
        (some (dbInsertOrReplace sl.db W t).1)) q = findNode sl.prefixTree q := by
    intro q hq
    unfold setDbID setIsEnd
    rw [findNode_updateNode_ne _ _ _ hq, findNode_updateNode_ne _ _ _ hq]
  have hpreT1 : ∀ v, isPrefixOfAnyWord (setDbID (setIsEnd sl.prefixTree W true) W
      (some (dbInsertOrReplace sl.db W t).1)) v = isPrefixOfAnyWord sl.prefixTree v := by
    intro v
    unfold setDbID setIsEnd
    rw [isPrefixOfAnyWord_updateNode (updateNode sl.prefixTree W
        (fun d => { d with isEndOfWord := true })) W
        (fun d => { d with dbID := some (dbInsertOrReplace sl.db W t).1 }) (fun d => rfl) v,
      isPrefixOfAnyWord_updateNode sl.prefixTree W
        (fun d => { d with isEndOfWord := true }) (fun d => rfl) v]
  have hskip1 : ∀ w, w ≠ W → w ∈ timedOutWords sl.prefixTree (t - sl.timeout) →
      sweepStep t fs (setDbID (setIsEnd sl.prefixTree W true) W
          (some (dbInsertOrReplace sl.db W t).1),
        (dbInsertOrReplace sl.db W t).2, ([] : List Word) ++ [W]) w =
        (setDbID (setIsEnd sl.prefixTree W true) W
          (some (dbInsertOrReplace sl.db W t).1),
        (dbInsertOrReplace sl.db W t).2, ([] : List Word) ++ [W]) := by
    intro w hwW hw
    obtain ⟨nd, hf⟩ := Option.isSome_iff_exists.mp (timedOutWords_sub _ w hw)
    have hf1 : findNode (setDbID (setIsEnd sl.prefixTree W true) W
        (some (dbInsertOrReplace sl.db W t).1)) w = some nd := by
      rw [hfindT1 w hwW]; exact hf
    refine sweepStep_skip_suppressed t fs _ hf1 (hst.1 w nd hf).2 ?_
    rw [hpreT1 w]
    exact hsup w hwW hw
  obtain ⟨l1, l2, hdec⟩ := List.append_of_mem hWcand
  have hcnd := nodup_timedOutWords hnd (t - sl.timeout)
  rw [hdec] at hcnd
  obtain ⟨hnd1, hnd2, hdisj⟩ := List.nodup_append.mp hcnd
  have hW1 : W ∉ l1 := fun h => hdisj h (List.mem_cons_self W l2)
  have hW2 : W ∉ l2 := (List.nodup_cons.mp hnd2).1
  have hmem1 : ∀ w, w ∈ l1 ∨ w ∈ l2 → w ∈ timedOutWords sl.prefixTree (t - sl.timeout) := by
    intro w hw
    rw [hdec]
    rcases hw with h | h
    · exact List.mem_append.mpr (Or.inl h)
    · exact List.mem_append.mpr (Or.inr (List.mem_cons_of_mem W h))
  have hne1 : ∀ w, w ∈ l1 ∨ w ∈ l2 → w ≠ W := by
    intro w hw he
    rw [he] at hw
    rcases hw with h | h
    · exact hW1 h
    · exact hW2 h
  have hfold : (timedOutWords sl.prefixTree (t - sl.timeout)).foldl (sweepStep t fs)
      (sl.prefixTree, sl.db, ([] : List Word)) =
      (setDbID (setIsEnd sl.prefixTree W true) W (some (dbInsertOrReplace sl.db W t).1),
       (dbInsertOrReplace sl.db W t).2, [W]) := by
    rw [hdec]
    rw [sweepFold_single t fs l1 l2 W (sl.prefixTree, sl.db, ([] : List Word)) ndW
      (fun w hw => hskip0 w (hne1 w hw) (hmem1 w hw))
      (fun w hw => hskip1 w (hne1 w (Or.inr hw)) (hmem1 w (Or.inr hw)))
      hfW hdW hsW hWfs]
    rfl
  have hproc : processTimedOutWords sl t fs =
      ({ sl with
          prefixTree := setDbID (setIsEnd sl.prefixTree W true) W
            (some (dbInsertOrReplace sl.db W t).1),
          db := (dbInsertOrReplace sl.db W t).2 }, [W]) := by
    simp only [processTimedOutWords]
    rw [hfold]
  refine ⟨?_, by rw [hproc]⟩
  rw [step_sweep, hproc]
  refine ⟨hto, ?_, ?_, ?_, ?_, ?_⟩
  · exact noDupKeys_updateNode (noDupKeys_updateNode hnd _ _) _ _
  · show (findNode (setDbID (setIsEnd sl.prefixTree W true) W
      (some (dbInsertOrReplace sl.db W t).1)) []).isSome
    unfold setDbID setIsEnd
    rw [findNode_updateNode_isSome, findNode_updateNode_isSome]
    exact hroot
  · intro q
    show (findNode (setDbID (setIsEnd sl.prefixTree W true) W
      (some (dbInsertOrReplace sl.db W t).1)) q).isSome ↔ _
    unfold setDbID setIsEnd
    rw [findNode_updateNode_isSome, findNode_updateNode_isSome]
    exact hkeys q
  · intro q
    show trieLastSeen (setDbID (setIsEnd sl.prefixTree W true) W
      (some (dbInsertOrReplace sl.db W t).1)) q = _
    rw [trieLastSeen_setDbID, trieLastSeen_setIsEnd]
    exact hseen q
  · refine ⟨⟨(W, τW), lastTimeIn_mem hWt, rfl⟩, ?_, ?_⟩
    · intro q d hfd
      by_cases hq : q = W
      · subst hq
        unfold setDbID setIsEnd at hfd
        rw [findNode_updateNode_self, findNode_updateNode_self, hfW] at hfd
        simp only [Option.map_some'] at hfd
        injection hfd with hd2
        constructor
        · rw [← hd2]
          simp
        · rw [← hd2, if_pos rfl]
          show some (dbInsertOrReplace sl.db q t).1 = some 1
          rw [hst.2, dbInsert_empty]
      · unfold setDbID setIsEnd at hfd
        rw [findNode_updateNode_ne _ _ _ hq, findNode_updateNode_ne _ _ _ hq] at hfd
        refine ⟨?_, ?_⟩
        · rw [(hst.1 q d hfd).1]
          simp [hq]
        · rw [(hst.1 q d hfd).2, if_neg hq]
    · show (dbInsertOrReplace sl.db W t).2 = _
      rw [hst.2, dbInsert_empty]

/-- The C1 trace shape after the first submission: the remaining events
interleave further submissions of a strictly growing chain of nonempty
normalized words, each arriving within the timeout of the previous
submission, with sweep ticks that fire while typing is in progress (at
or before the last submission time plus the timeout) and carry no
injected store failures.  The two parameters track the latest
submission so far. -/
def C1Trace (timeout : Nat) : Word → Nat → List Event → Prop
  | _, _, [] => True
  | p, tp, Event.submit w t rf :: r =>
      rf = false ∧ w ≠ [] ∧ normalizeWord w = w ∧ p <+: w ∧ p ≠ w ∧
        tp ≤ t ∧ t ≤ tp + timeout ∧ C1Trace timeout w t r
  | p, tp, Event.sweep t fs :: r =>
      fs = [] ∧ t ≤ tp + timeout ∧ C1Trace timeout p tp r

/-- The last submission of a trace, starting from the given one. -/
def chainEnd : Word → Nat → List Event → Word × Nat
  | p, tp, [] => (p, tp)
  | _, _, Event.submit w t _ :: r => chainEnd w t r
  | p, tp, Event.sweep _ _ :: r => chainEnd p tp r

/-- The C5 trace shape after the initial submission of the full word:
submissions of nonempty normalized strictly shorter prefixes of it, in
any order, interleaved with failure-free sweep ticks at any times. -/
def C5Trace (W : Word) : List Event → Prop
  | [] => True
  | Event.submit w _ rf :: r =>
      rf = false ∧ w ≠ [] ∧ normalizeWord w = w ∧ w <+: W ∧ w ≠ W ∧ C5Trace W r
  | Event.sweep _ fs :: r => fs = [] ∧ C5Trace W r

theorem chainEnd_nil (p : Word) (tp : Nat) : chainEnd p tp [] = (p, tp) := rfl

theorem chainEnd_submit (p : Word) (tp : Nat) (w : Word) (t : Nat) (rf : Bool)
    (r : List Event) : chainEnd p tp (Event.submit w t rf :: r) = chainEnd w t r := rfl

theorem chainEnd_sweep (p : Word) (tp : Nat) (t : Nat) (fs : List Word)
    (r : List Event) : chainEnd p tp (Event.sweep t fs :: r) = chainEnd p tp r := rfl

theorem submitsOf_nil : submitsOf [] = [] := rfl

theorem submitsOf_submit (w : Word) (t : Nat) (rf : Bool) (r : List Event) :
    submitsOf (Event.submit w t rf :: r) = (w, t) :: submitsOf r := rfl

theorem submitsOf_sweep (t : Nat) (fs : List Word) (r : List Event) :
    submitsOf (Event.sweep t fs :: r) = submitsOf r := rfl

theorem run_append (sl : SearchLogger) (a b : List Event) :
    run sl (a ++ b) = run (run sl a) b := by
  unfold run
  exact List.foldl_append step sl a b

theorem c1Trace_prefix_end (timeout : Nat) :
    ∀ (evs : List Event) (p : Word) (tp : Nat), C1Trace timeout p tp evs →
      p <+: (chainEnd p tp evs).1 := by
  intro evs
  induction evs with
  | nil => intro p tp _; exact List.prefix_refl p
  | cons e r ih =>
    intro p tp h
    cases e with
    | submit w t rf =>
      obtain ⟨_, _, _, hpw, _, _, _, hr⟩ := h
      rw [chainEnd_submit]
      exact hpw.trans (ih w t hr)
    | sweep t fs =>
      obtain ⟨_, _, hr⟩ := h
      rw [chainEnd_sweep]
      exact ih p tp hr

theorem chainState_fresh (W : Word) (timeout : Nat) :
    ChainState W timeout [] none (freshLogger timeout) := by
  refine ⟨rfl, noDupKeys_emptyTrie, hasRoot_emptyTrie, ?_, ?_, ?_, rfl⟩
  · intro q
    show (findNode emptyTrie q).isSome ↔ _
    rw [findNode_emptyTrie]
    by_cases hq : q = []
    · simp [hq]
    · simp [hq]
  · intro q
    show trieLastSeen emptyTrie q = _
    rw [trieLastSeen_emptyTrie, lastTimeIn_nil]
  · intro q d hfd
    have hfd2 : findNode emptyTrie q = some d := hfd
    exact ⟨isEnd_emptyTrie q d hfd2, by
      have h2 := trieDbID_emptyTrie q
      unfold trieDbID at h2
      rw [hfd2] at h2
      exact h2⟩

theorem chainState_db {W : Word} {timeout : Nat} {subs : List (Word × Nat)} {tst : Nat}
    {sl : SearchLogger} (hCS : ChainState W timeout subs (some tst) sl) :
    sl.db = MockDB.mk [SearchRecord.mk 1 W tst tst 1] 2 ∧ storedWords sl = [W] := by
  have hdb : sl.db = MockDB.mk [SearchRecord.mk 1 W tst tst 1] 2 := hCS.2.2.2.2.2.2.2
  refine ⟨hdb, ?_⟩
  show dbWords sl.db = [W]
  rw [hdb]
  rfl

theorem c1_body (timeout : Nat) (W : Word) (evs : List Event) :
    ∀ (subs : List (Word × Nat)) (p : Word) (tp : Nat) (sl : SearchLogger),
      ChainState W timeout subs none sl →
      (∀ s ∈ subs, s.1 <+: p) →
      lastTimeIn subs p = some tp →
      (chainEnd p tp evs).1 <+: W →
      C1Trace timeout p tp evs →
      ChainState W timeout (subs ++ submitsOf evs) none (run sl evs) ∧
      (∀ s ∈ subs ++ submitsOf evs, s.1 <+: (chainEnd p tp evs).1) ∧
      lastTimeIn (subs ++ submitsOf evs) (chainEnd p tp evs).1 =
        some (chainEnd p tp evs).2 := by
  induction evs with
  | nil =>
    intro subs p tp sl hCS hpre hlast _ _
    rw [chainEnd_nil, submitsOf_nil, List.append_nil]
    exact ⟨hCS, hpre, hlast⟩
  | cons e r ih =>
    intro subs p tp sl hCS hpre hlast hendW htr
    cases e with
    | submit w t rf =>
      obtain ⟨hrf, hw, hnorm, hpw, hpwne, htp1, htp2, hr⟩ := htr
      rw [chainEnd_submit] at hendW ⊢
      have hwW : w <+: W := (c1Trace_prefix_end timeout r w t hr).trans hendW
      subst hrf
      have hCS2 := chain_submit w t hCS hw hnorm hwW
      have hpre2 : ∀ s ∈ subs ++ [(w, t)], s.1 <+: w := by
        intro s hs
        rcases List.mem_append.mp hs with h | h
        · exact (hpre s h).trans hpw
        · have he : s = (w, t) := by simpa using h
          rw [he]
      have hlast2 : lastTimeIn (subs ++ [(w, t)]) w = some t := by
        rw [lastTimeIn_append_single, if_pos rfl]
      have hres := ih (subs ++ [(w, t)]) w t
        (step sl (Event.submit w t false)) hCS2 hpre2 hlast2 hendW hr
      rw [run_cons, submitsOf_submit,
        show subs ++ (w, t) :: submitsOf r = (subs ++ [(w, t)]) ++ submitsOf r by simp]
      exact hres
    | sweep t fs =>
      obtain ⟨hfs, ht, hr⟩ := htr
      rw [chainEnd_sweep] at hendW ⊢
      have hskip : step sl (Event.sweep t fs) = sl := by
        refine chain_sweep_skip t fs hCS ?_
        intro q τq hq hτ
        right
        have hqp : q <+: p := hpre (q, τq) (lastTimeIn_mem hq)
        by_cases hqe : q = p
        · exfalso
          rw [hqe, hlast] at hq
          injection hq with hq2
          omega
        · exact ⟨p, hqp, hqe, by rw [hlast]; simp⟩
      rw [run_cons, hskip, submitsOf_sweep]
      exact ih subs p tp sl hCS hpre hlast hendW hr

theorem tail_sweeps {W : Word} {timeout : Nat} {subs : List (Word × Nat)} {tst : Nat} :
    ∀ (tail : List Event) (sl : SearchLogger),
      ChainState W timeout subs (some tst) sl →
      (∀ s ∈ subs, s.1 <+: W) →
      (∀ e ∈ tail, ∃ t2, e = Event.sweep t2 []) →
      run sl tail = sl := by
  intro tail
  induction tail with
  | nil => intro sl _ _ _; rfl
  | cons e r ih =>
    intro sl hCS hpre htail
    obtain ⟨t2, he⟩ := htail e (List.mem_cons_self e r)
    subst he
    have hskip : step sl (Event.sweep t2 []) = sl := by
      refine chain_sweep_skip t2 [] hCS ?_
      intro q τq hq hτ
      by_cases hqW : q = W
      · exact Or.inl ⟨by simp, hqW⟩
      · refine Or.inr ⟨W, hpre (q, τq) (lastTimeIn_mem hq), hqW, ?_⟩
        obtain ⟨s, hs1, hs2⟩ := hCS.2.2.2.2.2.1
        obtain ⟨τ, hτ3⟩ := mem_lastTimeIn_isSome
          (show (W, s.2) ∈ subs by rw [← hs2]; exact hs1)
        rw [hτ3]
        simp
    rw [run_cons, hskip]
    exact ih sl hCS hpre (fun e2 h2 => htail e2 (List.mem_cons_of_mem _ h2))

theorem c5_body (timeout : Nat) (W : Word) (τ1 : Nat) (evs : List Event) :
    ∀ (subs : List (Word × Nat)) (stored : Option Nat) (sl : SearchLogger),
      ChainState W timeout subs stored sl →
      (∀ s ∈ subs, s.1 <+: W) →
      lastTimeIn subs W = some τ1 →
      C5Trace W evs →
      ∃ stored2, ChainState W timeout (subs ++ submitsOf evs) stored2 (run sl evs) ∧
        (∀ s ∈ subs ++ submitsOf evs, s.1 <+: W) ∧
        lastTimeIn (subs ++ submitsOf evs) W = some τ1 := by
  induction evs with
  | nil =>
    intro subs stored sl hCS hpre hW _
    rw [submitsOf_nil, List.append_nil]
    exact ⟨stored, hCS, hpre, hW⟩
  | cons e r ih =>
    intro subs stored sl hCS hpre hW htr
    cases e with
    | submit w t rf =>
      obtain ⟨hrf, hw, hnorm, hwW, hwne, hr⟩ := htr
      subst hrf
      have hCS2 := chain_submit w t hCS hw hnorm hwW
      have hpre2 : ∀ s ∈ subs ++ [(w, t)], s.1 <+: W := by
        intro s hs
        rcases List.mem_append.mp hs with h | h
        · exact hpre s h
        · have he : s = (w, t) := by simpa using h
          rw [he]
          exact hwW
      have hW2 : lastTimeIn (subs ++ [(w, t)]) W = some τ1 := by
        rw [lastTimeIn_append_single, if_neg (fun he => hwne he.symm)]
        exact hW
      have hres := ih (subs ++ [(w, t)]) stored
        (step sl (Event.submit w t false)) hCS2 hpre2 hW2 hr
      rw [run_cons, submitsOf_submit,
        show subs ++ (w, t) :: submitsOf r = (subs ++ [(w, t)]) ++ submitsOf r by simp]
      exact hres
    | sweep t fs =>
      obtain ⟨hfs, hr⟩ := htr
      subst hfs
      rcases stored with _ | tst
      · by_cases hτc : τ1 < t - timeout
        · obtain ⟨hCS2, _⟩ := chain_sweep_store t [] hCS hW hτc hpre (List.not_mem_nil W)
          rw [run_cons, submitsOf_sweep]
          exact ih subs (some t) _ hCS2 hpre hW hr
        · have hskip : step sl (Event.sweep t []) = sl := by
            refine chain_sweep_skip t [] hCS ?_
            intro q τq hq hτ
            by_cases hqW : q = W
            · exfalso
              rw [hqW, hW] at hq
              injection hq with hq2
              rw [← hq2] at hτ
              exact hτc hτ
            · exact Or.inr ⟨W, hpre (q, τq) (lastTimeIn_mem hq), hqW, by rw [hW]; simp⟩
          rw [run_cons, hskip, submitsOf_sweep]
          exact ih subs none sl hCS hpre hW hr
      · have hskip : step sl (Event.sweep t []) = sl := by
          refine chain_sweep_skip t [] hCS ?_
          intro q τq hq hτ
          by_cases hqW : q = W
          · exact Or.inl ⟨by simp, hqW⟩
          · exact Or.inr ⟨W, hpre (q, τq) (lastTimeIn_mem hq), hqW, by rw [hW]; simp⟩
        rw [run_cons, hskip, submitsOf_sweep]
        exact ih subs (some tst) sl hCS hpre hW hr

theorem run_single (sl : SearchLogger) (e : Event) : run sl [e] = step sl e := rfl

theorem insertPath_nil_word (t : Trie) : insertPath t [] = t := rfl

theorem lastTimeIn_singleton (w : Word) (t : Nat) (q : Word) :
    lastTimeIn [(w, t)] q = if q = w then some t else none := by
  have h0 := lastTimeIn_append_single [] w t q
  rw [List.nil_append] at h0
  rw [h0, lastTimeIn_nil]

theorem sweep_stored (sl : SearchLogger) (now : Nat) (fails : List Word) :
    (processTimedOutWords sl now fails).2 =
      ((timedOutWords sl.prefixTree (now - sl.timeout)).foldl (sweepStep now fails)
        (sl.prefixTree, sl.db, [])).2.2 := rfl

/-- C1: for every word and every trace that first submits a nonempty
normalized word and then a strictly growing chain of its extensions
ending in the full word `W`, each submission arriving within the
timeout of the previous one, with failure-free sweep ticks firing
while typing is in progress, one completing sweep tick strictly more
than the timeout after the last submission, and arbitrary further
failure-free sweep ticks afterwards, the persisted result set is
exactly `[W]`: the database holds a single record for `W`, written
once by the completing tick, and no intermediate form was ever
written. -/
theorem c1_convergence (timeout : Nat) (w1 : Word) (t1 : Nat) (body : List Event)
    (W : Word) (T : Nat) (tail : List Event)
    (h1 : w1 ≠ []) (h2 : normalizeWord w1 = w1)
    (hbody : C1Trace timeout w1 t1 body)
    (hend : (chainEnd w1 t1 body).1 = W)
    (hT : (chainEnd w1 t1 body).2 + timeout < T)
    (htail : ∀ e ∈ tail, ∃ t2, e = Event.sweep t2 []) :
    storedWords (run (freshLogger timeout)
      (Event.submit w1 t1 false :: (body ++ Event.sweep T [] :: tail))) = [W] ∧
    (run (freshLogger timeout)
      (Event.submit w1 t1 false :: (body ++ Event.sweep T [] :: tail))).db =
      MockDB.mk [SearchRecord.mk 1 W T T 1] 2 := by
  have hw1W : w1 <+: W := by
    rw [← hend]
    exact c1Trace_prefix_end timeout body w1 t1 hbody
  have hCS1 : ChainState W timeout [(w1, t1)] none
      (step (freshLogger timeout) (Event.submit w1 t1 false)) := by
    have h0 := chain_submit (W := W) w1 t1 (chainState_fresh W timeout) h1 h2 hw1W
    rw [List.nil_append] at h0
    exact h0
  have hpre1 : ∀ s ∈ [(w1, t1)], s.1 <+: w1 := by
    intro s hs
    have he : s = (w1, t1) := by simpa using hs
    rw [he]
  have hl1 : lastTimeIn [(w1, t1)] w1 = some t1 := by
    rw [lastTimeIn_singleton, if_pos rfl]
  obtain ⟨hCS2, hpre2, hlast2⟩ := c1_body timeout W body [(w1, t1)] w1 t1
    (step (freshLogger timeout) (Event.submit w1 t1 false)) hCS1 hpre1 hl1
    (by rw [hend]) hbody
  rw [hend] at hpre2 hlast2
  have hτ : (chainEnd w1 t1 body).2 < T - timeout := by omega
  obtain ⟨hCS3, _⟩ := chain_sweep_store T [] hCS2 hlast2 hτ hpre2 (List.not_mem_nil W)
  have htl := tail_sweeps tail _ hCS3 hpre2 htail
  rw [run_cons, run_append, run_cons, htl]
  obtain ⟨hdb, hsw⟩ := chainState_db hCS3
  exact ⟨hsw, hdb⟩

/-- Witness for C1: the chain a → ab with timeout 10, submissions at
0 and 5, completing sweep at 16 and one further tick at 20. -/
theorem c1_convergence_witness :
    storedWords (run (freshLogger 10)
      (Event.submit ['a'] 0 false ::
        ([Event.submit ['a', 'b'] 5 false] ++ Event.sweep 16 [] :: [Event.sweep 20 []]))) =
      [['a', 'b']] ∧
    (run (freshLogger 10)
      (Event.submit ['a'] 0 false ::
        ([Event.submit ['a', 'b'] 5 false] ++ Event.sweep 16 [] :: [Event.sweep 20 []]))).db =
      MockDB.mk [SearchRecord.mk 1 ['a', 'b'] 16 16 1] 2 :=
  c1_convergence 10 ['a'] 0 [Event.submit ['a', 'b'] 5 false] ['a', 'b'] 16
    [Event.sweep 20 []]
    (by decide) (by decide)
    ⟨rfl, by decide, by decide, by decide, by decide, by decide, by decide, trivial⟩
    (by decide) (by decide)
    (by intro e he; rw [List.mem_singleton] at he; exact ⟨20, he⟩)

/-- C5: starting from a freshly created logger over an empty database,
submitting the full word `W` first and then further strictly shorter
normalized prefixes of it — the decreasing-length order — interleaved
with failure-free sweep ticks at arbitrary times, followed by a final
sweep strictly more than the timeout after `W`'s submission, persists
exactly `[W]`, stored once: the same final result set as the
increasing-order submission of the same prefixes. -/
theorem c5_order_independence (timeout : Nat) (W : Word) (t1 : Nat) (body : List Event)
    (T : Nat)
    (hW : W ≠ []) (hWn : normalizeWord W = W)
    (hbody : C5Trace W body)
    (hdec : List.Chain' (fun a b => b.1 <+: a.1 ∧ b.1 ≠ a.1) ((W, t1) :: submitsOf body))
    (hT : t1 + timeout < T) :
    storedWords (run (freshLogger timeout)
      (Event.submit W t1 false :: (body ++ [Event.sweep T []]))) = [W] ∧
    ∃ tst, (run (freshLogger timeout)
      (Event.submit W t1 false :: (body ++ [Event.sweep T []]))).db =
      MockDB.mk [SearchRecord.mk 1 W tst tst 1] 2 := by
  have hCS1 : ChainState W timeout [(W, t1)] none
      (step (freshLogger timeout) (Event.submit W t1 false)) := by
    have h0 := chain_submit (W := W) W t1 (chainState_fresh W timeout) hW hWn
      (List.prefix_refl W)
    rw [List.nil_append] at h0
    exact h0
  have hpre1 : ∀ s ∈ [(W, t1)], s.1 <+: W := by
    intro s hs
    have he : s = (W, t1) := by simpa using hs
    rw [he]
  have hl1 : lastTimeIn [(W, t1)] W = some t1 := by
    rw [lastTimeIn_singleton, if_pos rfl]
  obtain ⟨stored2, hCS2, hpre2, hl2⟩ := c5_body timeout W t1 body [(W, t1)] none
    (step (freshLogger timeout) (Event.submit W t1 false)) hCS1 hpre1 hl1 hbody
  rcases stored2 with _ | tst
  · have hτc : t1 < T - timeout := by omega
    obtain ⟨hCS3, _⟩ := chain_sweep_store T [] hCS2 hl2 hτc hpre2 (List.not_mem_nil W)
    obtain ⟨hdb, hsw⟩ := chainState_db hCS3
    rw [run_cons, run_append, run_single]
    exact ⟨hsw, T, hdb⟩
  · have hskip := chain_sweep_skip T [] hCS2 (by
      intro q τq hq hτ
      by_cases hqW : q = W
      · exact Or.inl ⟨by simp, hqW⟩
      · exact Or.inr ⟨W, hpre2 (q, τq) (lastTimeIn_mem hq), hqW, by rw [hl2]; simp⟩)
    rw [run_cons, run_append, run_single, hskip]
    obtain ⟨hdb, hsw⟩ := chainState_db hCS2
    exact ⟨hsw, tst, hdb⟩

/-- Witness for C5: prefixes of "ab" submitted longest first ("ab" at
0, then "a" at 3), final sweep at 11, timeout 10. -/
theorem c5_order_independence_witness :
    storedWords (run (freshLogger 10)
      (Event.submit ['a', 'b'] 0 false ::
        ([Event.submit ['a'] 3 false] ++ [Event.sweep 11 []]))) = [['a', 'b']] ∧
    ∃ tst, (run (freshLogger 10)
      (Event.submit ['a', 'b'] 0 false ::
        ([Event.submit ['a'] 3 false] ++ [Event.sweep 11 []]))).db =
      MockDB.mk [SearchRecord.mk 1 ['a', 'b'] tst tst 1] 2 :=
  c5_order_independence 10 ['a', 'b'] 0 [Event.submit ['a'] 3 false] 11
    (by decide) (by decide)
    ⟨rfl, by decide, by decide, by decide, by decide, trivial⟩
    (by
      show List.Chain' (fun a b => b.1 <+: a.1 ∧ b.1 ≠ a.1) [(['a', 'b'], 0), (['a'], 3)]
      exact List.chain'_cons.mpr ⟨⟨⟨['b'], rfl⟩, by decide⟩, List.chain'_singleton _⟩)
    (by decide)

/-- C3 counterexample: timeout 10, the word "a" submitted once at
time 0 and never extended: the sweep tick at exactly time
10 = lastTypedAt + timeout persists nothing, contradicting
"persisted by the first sweep tick occurring at or after
lastTypedAt + timeout"; the tick at 11 then persists it. -/
theorem c3_boundary_counterexample :
    storedWords (run (freshLogger 10)
      [Event.submit ['a'] 0 false, Event.sweep 10 []]) = [] ∧
    storedWords (run (freshLogger 10)
      [Event.submit ['a'] 0 false, Event.sweep 11 []]) = [['a']] := by
  exact ⟨rfl, rfl⟩

/-- C3 (amended): a word submitted once at time t and never extended
is persisted by no sweep tick at or before t + timeout (the node's
timestamp must be strictly before the tick's cutoff), and the first
sweep tick strictly after t + timeout persists it as the single
stored record. -/
theorem c3_timeout_boundary (timeout : Nat) (w : Word) (t T : Nat)
    (hw : w ≠ []) (hwn : normalizeWord w = w) :
    (T ≤ t + timeout →
      storedWords (run (freshLogger timeout)
        [Event.submit w t false, Event.sweep T []]) = []) ∧
    (t + timeout < T →
      storedWords (run (freshLogger timeout)
        [Event.submit w t false, Event.sweep T []]) = [w] ∧
      (run (freshLogger timeout)
        [Event.submit w t false, Event.sweep T []]).db =
        MockDB.mk [SearchRecord.mk 1 w T T 1] 2) := by
  have hCS1 : ChainState w timeout [(w, t)] none
      (step (freshLogger timeout) (Event.submit w t false)) := by
    have h0 := chain_submit (W := w) w t (chainState_fresh w timeout) hw hwn
      (List.prefix_refl w)
    rw [List.nil_append] at h0
    exact h0
  have hpre1 : ∀ s ∈ [(w, t)], s.1 <+: w := by
    intro s hs
    have he : s = (w, t) := by simpa using hs
    rw [he]
  have hl1 : lastTimeIn [(w, t)] w = some t := by
    rw [lastTimeIn_singleton, if_pos rfl]
  have hrun : run (freshLogger timeout) [Event.submit w t false, Event.sweep T []] =
      step (step (freshLogger timeout) (Event.submit w t false)) (Event.sweep T []) := rfl
  constructor
  · intro hle
    have hskip := chain_sweep_skip T [] hCS1 (by
      intro q τq hq hτ
      rw [lastTimeIn_singleton] at hq
      by_cases hqw : q = w
      · rw [if_pos hqw] at hq
        injection hq with hq2
        exact absurd hτ (by omega)
      · rw [if_neg hqw] at hq
        cases hq)
    rw [hrun, hskip]
    show dbWords (step (freshLogger timeout) (Event.submit w t false)).db = []
    rw [show (step (freshLogger timeout) (Event.submit w t false)).db = MockDB.empty from
      hCS1.2.2.2.2.2.2]
    rfl
  · intro hlt
    have hτ : t < T - timeout := by omega
    obtain ⟨hCS3, _⟩ := chain_sweep_store T [] hCS1 hl1 hτ hpre1 (List.not_mem_nil w)
    obtain ⟨hdb, hsw⟩ := chainState_db hCS3
    rw [hrun]
    exact ⟨hsw, hdb⟩

/-- Witness for C3 (amended): timeout 10, word "a" at time 0, with
the boundary tick T = 10 and the first effective tick T = 11. -/
theorem c3_timeout_boundary_witness :
    (((10 : Nat) ≤ 0 + 10 →
      storedWords (run (freshLogger 10)
        [Event.submit ['a'] 0 false, Event.sweep 10 []]) = []) ∧
     (0 + 10 < 10 →
      storedWords (run (freshLogger 10)
        [Event.submit ['a'] 0 false, Event.sweep 10 []]) = [['a']] ∧
      (run (freshLogger 10)
        [Event.submit ['a'] 0 false, Event.sweep 10 []]).db =
        MockDB.mk [SearchRecord.mk 1 ['a'] 10 10 1] 2)) ∧
    (((11 : Nat) ≤ 0 + 10 →
      storedWords (run (freshLogger 10)
        [Event.submit ['a'] 0 false, Event.sweep 11 []]) = []) ∧
     (0 + 10 < 11 →
      storedWords (run (freshLogger 10)
        [Event.submit ['a'] 0 false, Event.sweep 11 []]) = [['a']] ∧
      (run (freshLogger 10)
        [Event.submit ['a'] 0 false, Event.sweep 11 []]).db =
        MockDB.mk [SearchRecord.mk 1 ['a'] 11 11 1] 2)) :=
  ⟨c3_timeout_boundary 10 ['a'] 0 10 (by decide) (by decide),
   c3_timeout_boundary 10 ['a'] 0 11 (by decide) (by decide)⟩

/-- C9 counterexample: a restart that reloads the previously stored
word "ab" stamps its node's lastSeen with the load time 100 although
no caller submitted "ab" through LogSearch in the new session,
contradicting the claimed "present iff submitted at least once". -/
theorem c9_reload_counterexample :
    trieLastSeen (newSearchLoggerWithDB 10
      (run (freshLogger 10) [Event.submit ['a', 'b'] 0 false, Event.sweep 11 []]).db
      100).prefixTree ['a', 'b'] = some 100 := by
  rfl

/-- C9 (amended): in a session started from an empty database (no
reloaded words), a node's lastSeen timestamp equals the time of the
last LogSearch submission whose nonempty input normalizes to exactly
that node's string, and is unset iff no such submission happened —
the claimed invariant holds only until a restart reloads words. -/
theorem c9_lastseen_iff_submitted (timeout : Nat) (evs : List Event) (p : Word) :
    trieLastSeen (run (freshLogger timeout) evs).prefixTree p = lastSubmitTime evs p := by
  rw [trieLastSeen_run evs (freshLogger timeout) hasRoot_emptyTrie p]
  cases h : lastSubmitTime evs p with
  | some τ => rfl
  | none => exact trieLastSeen_emptyTrie p

/-- C10: a nonempty all-whitespace query passes LogSearch's pre-trim
empty-word guard, normalizes to the empty string, and stamps the root
node's lastSeen with the submission time; with no other timestamped
node, a sweep tick strictly more than the timeout later persists the
empty string as a stored word. -/
theorem c10_whitespace_stores_empty (timeout : Nat) (ws : Word) (t T : Nat)
    (hne : ws ≠ []) (hws : trimSpace ws = []) (hT : t + timeout < T) :
    trieLastSeen (step (freshLogger timeout) (Event.submit ws t false)).prefixTree []
      = some t ∧
    storedWords (run (freshLogger timeout)
      [Event.submit ws t false, Event.sweep T []]) = [[]] := by
  have hn : normalizeWord ws = [] := by
    unfold normalizeWord
    rw [hws]
    rfl
  have H : ∀ p d, p <+: normalizeWord ws → p ≠ normalizeWord ws →
      findNode (freshLogger timeout).prefixTree p = some d →
      d.isEndOfWord = true → d.dbID = none := by
    intro p d hp hpne _ _
    rw [hn] at hp hpne
    exact absurd (List.prefix_nil.mp hp) hpne
  have hls := logSearch_noAction (freshLogger timeout) ws t false hne H
  have hroot0 : (findNode emptyTrie []).isSome := hasRoot_emptyTrie
  constructor
  · rw [step_submit, hls, hn]
    show trieLastSeen (setLastSeen (insertPath (freshLogger timeout).prefixTree []) [] t) [] = some t
    rw [insertPath_nil_word]
    exact trieLastSeen_setLastSeen_self hroot0 t
  · have hrun : run (freshLogger timeout) [Event.submit ws t false, Event.sweep T []] =
        step (step (freshLogger timeout) (Event.submit ws t false)) (Event.sweep T []) := rfl
    have key : storedWords (step (SearchLogger.mk (setLastSeen emptyTrie [] t)
        MockDB.empty timeout) (Event.sweep T [])) = [[]] := by
      set sl1 := SearchLogger.mk (setLastSeen emptyTrie [] t) MockDB.empty timeout with hsl1
      have hnd1 : NoDupKeys sl1.prefixTree := by
        show NoDupKeys (setLastSeen emptyTrie [] t)
        exact noDupKeys_updateNode noDupKeys_emptyTrie _ _
      have h1 : ∃ τ, trieLastSeen sl1.prefixTree [] = some τ ∧ τ < T - sl1.timeout := by
        refine ⟨t, ?_, ?_⟩
        · exact trieLastSeen_setLastSeen_self hroot0 t
        · show t < T - timeout
          omega
      have h2 : ∀ q, q ≠ [] → trieLastSeen sl1.prefixTree q = none := by
        intro q hq
        show trieLastSeen (setLastSeen emptyTrie [] t) q = none
        rw [trieLastSeen_setLastSeen_ne hq]
        exact trieLastSeen_emptyTrie q
      have h3 : trieDbID sl1.prefixTree [] = none := by
        show trieDbID (setLastSeen emptyTrie [] t) [] = none
        rw [trieDbID_setLastSeen]
        exact trieDbID_emptyTrie []
      have hsr := sweep_single_result sl1 T [] [] hnd1 h1 h2 h3 (List.not_mem_nil [])
      rw [step_sweep, hsr]
      show dbWords (dbInsertOrReplace sl1.db [] T).2 = [[]]
      rw [show sl1.db = MockDB.empty from rfl, dbInsert_empty]
      rfl
    rw [hrun, step_submit, hls, hn]
    exact key

/-- Witness for C10: the single-space query at time 0, timeout 10,
sweep at 11. -/
theorem c10_whitespace_stores_empty_witness :
    trieLastSeen (step (freshLogger 10) (Event.submit [' '] 0 false)).prefixTree []
      = some 0 ∧
    storedWords (run (freshLogger 10)
      [Event.submit [' '] 0 false, Event.sweep 11 []]) = [[]] :=
  c10_whitespace_stores_empty 10 [' '] 0 11 (by decide) (by decide) (by decide)

/-- C2 (violated): the failure-free trace submit "a" at 0, sweep at 11
(stores "a"), submit "ab" at 12 (the stored reference moves to the
"ab" node, which is not marked end-of-word), submit "abc" at 13 (the
walk skips the unmarked "ab" node, so the moved reference stays
behind), sweep at 24 (stores "abc" as a fresh record) leaves non-nil
dbID references on both the "ab" node and the "abc" node of one
root-to-leaf path, violating the claimed invariant. -/
theorem c2_invariant_violated :
    failureFree [Event.submit ['a'] 0 false, Event.sweep 11 [],
      Event.submit ['a', 'b'] 12 false, Event.submit ['a', 'b', 'c'] 13 false,
      Event.sweep 24 []] = true ∧
    trieDbID (run (freshLogger 10) [Event.submit ['a'] 0 false, Event.sweep 11 [],
      Event.submit ['a', 'b'] 12 false, Event.submit ['a', 'b', 'c'] 13 false,
      Event.sweep 24 []]).prefixTree ['a', 'b'] = some 1 ∧
    trieDbID (run (freshLogger 10) [Event.submit ['a'] 0 false, Event.sweep 11 [],
      Event.submit ['a', 'b'] 12 false, Event.submit ['a', 'b', 'c'] 13 false,
      Event.sweep 24 []]).prefixTree ['a', 'b', 'c'] = some 2 ∧
    (['a', 'b'] <+: ['a', 'b', 'c']) := by
  refine ⟨rfl, ?_, ?_, ⟨['c'], rfl⟩⟩
  · rfl
  · rfl

/-- C4: on startup every stored word is loaded into the trie with
isEndOfWord true, lastSeen the load time and dbID left nil; and in a
restarted session, submitting a proper extension of a reloaded word
does not rename the old record — the extension is persisted by the
next sweep as a new record, so both the reloaded word and its
extension end up stored. -/
theorem c4_reload_no_rename (timeout : Nat) (db : MockDB) (now : Nat) (w : Word)
    (hw : w ∈ dbWords db) :
    (trieIsEnd (newSearchLoggerWithDB timeout db now).prefixTree w = some true ∧
     trieLastSeen (newSearchLoggerWithDB timeout db now).prefixTree w = some now ∧
     trieDbID (newSearchLoggerWithDB timeout db now).prefixTree w = none) ∧
    (run (newSearchLoggerWithDB 10 (MockDB.mk [SearchRecord.mk 1 ['a', 'b'] 0 0 1] 2) 100)
      [Event.submit ['a', 'b', 'c'] 110 false, Event.sweep 121 []]).db =
      MockDB.mk [SearchRecord.mk 1 ['a', 'b'] 0 0 1,
        SearchRecord.mk 2 ['a', 'b', 'c'] 121 121 1] 3 := by
  refine ⟨⟨?_, ?_, ?_⟩, ?_⟩
  · rw [newSearchLoggerWithDB_tree]
    exact loadWords_isEnd_mem hasRoot_emptyTrie hw now
  · rw [newSearchLoggerWithDB_tree, loadWords_lastSeen hasRoot_emptyTrie _ now w, if_pos hw]
  · rw [newSearchLoggerWithDB_tree, loadWords_dbID]
    exact trieDbID_emptyTrie w
  · rfl

/-- Witness for C4: a restarted session over a database holding "ab"
(loaded at time 100), extended by "abc" at 110 and swept at 121. -/
theorem c4_reload_no_rename_witness :
    (trieIsEnd (newSearchLoggerWithDB 10 (MockDB.mk [SearchRecord.mk 1 ['a', 'b'] 0 0 1] 2)
      100).prefixTree ['a', 'b'] = some true ∧
     trieLastSeen (newSearchLoggerWithDB 10 (MockDB.mk [SearchRecord.mk 1 ['a', 'b'] 0 0 1] 2)
      100).prefixTree ['a', 'b'] = some 100 ∧
     trieDbID (newSearchLoggerWithDB 10 (MockDB.mk [SearchRecord.mk 1 ['a', 'b'] 0 0 1] 2)
      100).prefixTree ['a', 'b'] = none) ∧
    (run (newSearchLoggerWithDB 10 (MockDB.mk [SearchRecord.mk 1 ['a', 'b'] 0 0 1] 2) 100)
      [Event.submit ['a', 'b', 'c'] 110 false, Event.sweep 121 []]).db =
      MockDB.mk [SearchRecord.mk 1 ['a', 'b'] 0 0 1,
        SearchRecord.mk 2 ['a', 'b', 'c'] 121 121 1] 3 :=
  c4_reload_no_rename 10 (MockDB.mk [SearchRecord.mk 1 ['a', 'b'] 0 0 1] 2) 100 ['a', 'b']
    (by decide)

/-- C6 counterexample: with timeout 10, in the trace submit "a" at 0,
sweep at 20, submit "a" again at 50, submit "ab" at 55, the extension
"ab" is submitted within the timeout of "a"'s last submission (50),
yet the sweep tick at 20 — occurring before "ab" was ever submitted —
stored "a" as its own record, contradicting "no reachable sweep ever
stores A". -/
theorem c6_counterexample :
    lastSubmitTime [Event.submit ['a'] 0 false, Event.sweep 20 [],
      Event.submit ['a'] 50 false, Event.submit ['a', 'b'] 55 false] ['a'] = some 50 ∧
    lastSubmitTime [Event.submit ['a'] 0 false, Event.sweep 20 [],
      Event.submit ['a'] 50 false, Event.submit ['a', 'b'] 55 false] ['a', 'b'] = some 55 ∧
    (processTimedOutWords (run (freshLogger 10) [Event.submit ['a'] 0 false]) 20 []).2 =
      [['a']] := by
  refine ⟨?_, ?_, ?_⟩
  · rfl
  · rfl
  · rfl

/-- C6 (amended): at every single sweep tick, in any state, a word A
with a strict extension B whose lastSeen timestamp is set is never
stored by that tick — per-tick prefix suppression; ticks that occur
before the extension's first submission are not covered (and can
store A, as the counterexample shows). -/
theorem c6_prefix_suppression (sl : SearchLogger) (now : Nat) (fails : List Word)
    (A B : Word) (hnd : NoDupKeys sl.prefixTree)
    (hAB : A <+: B) (hne : A ≠ B)
    (hB : trieLastSeen sl.prefixTree B ≠ none) :
    A ∉ (processTimedOutWords sl now fails).2 := by
  intro hmem
  rw [sweep_stored] at hmem
  have hres := sweepFold_stored_mem now fails sl.prefixTree
    (timedOutWords sl.prefixTree (now - sl.timeout)) (sl.prefixTree, sl.db, [])
    (nodup_timedOutWords hnd _) (fun v => rfl) (fun v _ => rfl) (fun v _ => rfl) A hmem
  rcases hres with h | ⟨_, _, hfind, hsup, _⟩
  · simp at h
  · have htrue : isPrefixOfAnyWord sl.prefixTree A = true := by
      unfold isPrefixOfAnyWord
      obtain ⟨d, hd⟩ := Option.isSome_iff_exists.mp hfind
      rw [hd]
      exact (hasAny_iff hnd A).mpr ⟨B, hAB, hne, hB⟩
    rw [htrue] at hsup
    cases hsup

/-- Witness for C6 (amended): "a" submitted at 0, "ab" at 5; the tick
at 20 does not store "a". -/
theorem c6_prefix_suppression_witness :
    ['a'] ∉ (processTimedOutWords (run (freshLogger 10)
      [Event.submit ['a'] 0 false, Event.submit ['a', 'b'] 5 false]) 20 []).2 :=
  c6_prefix_suppression (run (freshLogger 10)
      [Event.submit ['a'] 0 false, Event.submit ['a', 'b'] 5 false]) 20 []
    ['a'] ['a', 'b'] (by unfold NoDupKeys; decide) (by decide) (by decide) (by decide)

/-- C7: when the gateway rename fails during LogSearch's extension
step (a stored proper-prefix ancestor exists in the tree), LogSearch
reports the error to the caller, the submitted word's node still has
its lastSeen stamped with the submission time, every node's dbID — in
particular the ancestor's, which is not cleared, and the submitted
word's, which gains none — is exactly as before the call, and the
database is unchanged. -/
theorem c7_rename_failure (sl : SearchLogger) (w : Word) (now : Nat)
    (hw : w ≠ [])
    (hanc : ∃ p d, p ≠ [] ∧ p <+: normalizeWord w ∧ p ≠ normalizeWord w ∧
      findNode sl.prefixTree p = some d ∧ d.isEndOfWord = true ∧ d.dbID ≠ none) :
    (logSearch sl w now true).2 = true ∧
    trieLastSeen (logSearch sl w now true).1.prefixTree (normalizeWord w) = some now ∧
    (∀ q, trieDbID (logSearch sl w now true).1.prefixTree q = trieDbID sl.prefixTree q) ∧
    (logSearch sl w now true).1.db = sl.db := by
  have hnne : normalizeWord w ≠ [] := by
    obtain ⟨p, d, hp1, hp2, _⟩ := hanc
    intro he
    rw [he] at hp2
    exact hp1 (List.prefix_nil.mp hp2)
  have hkey : handleWordExtension (setLastSeen (insertPath sl.prefixTree (normalizeWord w))
      (normalizeWord w) now) sl.db (normalizeWord w) now true =
      (setLastSeen (insertPath sl.prefixTree (normalizeWord w)) (normalizeWord w) now,
       sl.db, true) := by
    unfold handleWordExtension
    refine hweAux_renameFail (normalizeWord w) now (normalizeWord w) [] _ sl.db rfl ?_ ?_
    · intro p hp1 hp2 hp3
      unfold setLastSeen
      rw [findNode_updateNode_isSome, findNode_insertPath_isSome]
      exact Or.inr ⟨hp2, hp3⟩
    · obtain ⟨p, d, hp1, hp2, hp3, hf, hie, hdb⟩ := hanc
      refine ⟨p, d, List.nil_prefix, hp1, hp2, hp3, ?_, hie, hdb⟩
      show findNode (setLastSeen (insertPath sl.prefixTree (normalizeWord w))
        (normalizeWord w) now) p = some d
      unfold setLastSeen
      rw [findNode_updateNode_ne _ _ _ hp3]
      exact findNode_insertPath_of_some hf _
  have hls := logSearch_eq sl w now true hw
  rw [hkey] at hls
  refine ⟨?_, ?_, ?_, ?_⟩
  · rw [hls]
  · rw [hls]
    show trieLastSeen (setLastSeen (insertPath sl.prefixTree (normalizeWord w))
      (normalizeWord w) now) (normalizeWord w) = some now
    refine trieLastSeen_setLastSeen_self ?_ now
    rw [findNode_insertPath_isSome]
    exact Or.inr ⟨hnne, List.prefix_refl _⟩
  · intro q
    rw [hls]
    show trieDbID (setLastSeen (insertPath sl.prefixTree (normalizeWord w))
      (normalizeWord w) now) q = _
    rw [trieDbID_setLastSeen, trieDbID_insertPath]
  · rw [hls]

/-- Witness for C7: "ab" stored with id 1 (submitted at 0, swept at
11), then "abc" submitted at 12 with the rename failing. -/
theorem c7_rename_failure_witness :
    (logSearch (run (freshLogger 10)
      [Event.submit ['a', 'b'] 0 false, Event.sweep 11 []]) ['a', 'b', 'c'] 12 true).2 =
      true ∧
    trieLastSeen (logSearch (run (freshLogger 10)
      [Event.submit ['a', 'b'] 0 false, Event.sweep 11 []])
      ['a', 'b', 'c'] 12 true).1.prefixTree (normalizeWord ['a', 'b', 'c']) = some 12 ∧
    (∀ q, trieDbID (logSearch (run (freshLogger 10)
      [Event.submit ['a', 'b'] 0 false, Event.sweep 11 []])
      ['a', 'b', 'c'] 12 true).1.prefixTree q =
      trieDbID (run (freshLogger 10)
        [Event.submit ['a', 'b'] 0 false, Event.sweep 11 []]).prefixTree q) ∧
    (logSearch (run (freshLogger 10)
      [Event.submit ['a', 'b'] 0 false, Event.sweep 11 []]) ['a', 'b', 'c'] 12 true).1.db =
      (run (freshLogger 10) [Event.submit ['a', 'b'] 0 false, Event.sweep 11 []]).db :=
  c7_rename_failure (run (freshLogger 10)
      [Event.submit ['a', 'b'] 0 false, Event.sweep 11 []]) ['a', 'b', 'c'] 12
    (by decide)
    ⟨['a', 'b'], NodeData.mk true (some 0) (some 1), by decide, by decide, by decide,
      by decide, rfl, by decide⟩

/-- C8: within one sweep tick, a store failure injected for candidate
A does not prevent another qualifying candidate B from being stored
by the same tick; A's node keeps dbID none and an unchanged lastSeen
timestamp, so any later tick collects A as a candidate exactly as the
pre-sweep tree would. -/
theorem c8_store_failure_isolated (sl : SearchLogger) (now : Nat) (fails : List Word)
    (A B : Word) (hnd : NoDupKeys sl.prefixTree)
    (hA : A ∈ timedOutWords sl.prefixTree (now - sl.timeout))
    (hAdb : trieDbID sl.prefixTree A = none)
    (hAf : A ∈ fails)
    (hB : B ∈ timedOutWords sl.prefixTree (now - sl.timeout))
    (hBdb : trieDbID sl.prefixTree B = none)
    (hBsup : isPrefixOfAnyWord sl.prefixTree B = false)
    (hBf : B ∉ fails) :
    B ∈ (processTimedOutWords sl now fails).2 ∧
    trieDbID (processTimedOutWords sl now fails).1.prefixTree A = none ∧
    trieLastSeen (processTimedOutWords sl now fails).1.prefixTree A =
      trieLastSeen sl.prefixTree A ∧
    (∀ cutoff, A ∈ timedOutWords (processTimedOutWords sl now fails).1.prefixTree cutoff ↔
      A ∈ timedOutWords sl.prefixTree cutoff) := by
  refine ⟨?_, ?_, ?_, ?_⟩
  · rw [sweep_stored]
    exact (sweepFold_stores now fails sl.prefixTree _ (sl.prefixTree, sl.db, [])
      (nodup_timedOutWords hnd _) (fun v => rfl) (fun v _ => rfl) (fun v _ => rfl)
      B hB hBdb (timedOutWords_sub _ B hB) hBsup hBf).1
  · rw [sweep_tree]
    exact sweepFold_failKeeps now fails sl.prefixTree _ (sl.prefixTree, sl.db, [])
      (nodup_timedOutWords hnd _) (fun v => rfl) (fun v _ => rfl) A hA hAdb hAf
  · exact trieLastSeen_sweep sl now fails A
  · intro cutoff
    rw [mem_timedOutWords_iff (noDupKeys_sweep hnd now fails) cutoff A,
      mem_timedOutWords_iff hnd cutoff A]
    constructor
    · rintro ⟨τ, h1, h2⟩
      rw [trieLastSeen_sweep] at h1
      exact ⟨τ, h1, h2⟩
    · rintro ⟨τ, h1, h2⟩
      refine ⟨τ, ?_, h2⟩
      rw [trieLastSeen_sweep]
      exact h1

/-- Witness for C8: "a" (submitted at 0) and "b" (submitted at 1)
both time out by the tick at 12; the store of "a" fails while "b" is
stored; at cutoff 13 "a" is collected again. -/
theorem c8_store_failure_isolated_witness :
    ['b'] ∈ (processTimedOutWords (run (freshLogger 10)
      [Event.submit ['a'] 0 false, Event.submit ['b'] 1 false]) 12 [['a']]).2 ∧
    trieDbID (processTimedOutWords (run (freshLogger 10)
      [Event.submit ['a'] 0 false, Event.submit ['b'] 1 false])
      12 [['a']]).1.prefixTree ['a'] = none ∧
    (['a'] ∈ timedOutWords (processTimedOutWords (run (freshLogger 10)
      [Event.submit ['a'] 0 false, Event.submit ['b'] 1 false])
      12 [['a']]).1.prefixTree 13 ↔
      ['a'] ∈ timedOutWords (run (freshLogger 10)
        [Event.submit ['a'] 0 false, Event.submit ['b'] 1 false]).prefixTree 13) :=
  ⟨(c8_store_failure_isolated (run (freshLogger 10)
      [Event.submit ['a'] 0 false, Event.submit ['b'] 1 false]) 12 [['a']] ['a'] ['b']
      (by unfold NoDupKeys; decide) (by decide) (by decide) (by decide) (by decide) (by decide) (by decide)
      (by decide)).1,
   (c8_store_failure_isolated (run (freshLogger 10)
      [Event.submit ['a'] 0 false, Event.submit ['b'] 1 false]) 12 [['a']] ['a'] ['b']
      (by unfold NoDupKeys; decide) (by decide) (by decide) (by decide) (by decide) (by decide) (by decide)
      (by decide)).2.1,
   (c8_store_failure_isolated (run (freshLogger 10)
      [Event.submit ['a'] 0 false, Event.submit ['b'] 1 false]) 12 [['a']] ['a'] ['b']
      (by unfold NoDupKeys; decide) (by decide) (by decide) (by decide) (by decide) (by decide) (by decide)
      (by decide)).2.2.2 13⟩
